import Mathlib

/-!
Verification development for the append-only log core of `dp-teals`:
an RFC 6962 history tree (package `merkle`) and a Merkle Mountain Range
(package `mmr`), both parameterised over an injected hash function.

Byte strings (`[]byte` in the source) are modelled as `List Nat`, so the
domain separators `0x00` / `0x01` are the naturals `0` / `1`.  The hash
primitive (`hash.HashFunc`, i.e. `func([]byte) []byte`) is an arbitrary
function on byte strings; every operation takes it as a parameter, exactly
as the Go code carries `hashFunc` in the `Tree` / `MMR` objects or as a
trailing argument of the verification functions.
-/

namespace Teals

/-- A byte string (`[]byte`). -/
abbrev Bytes := List Nat

/-- A digest is just a byte string returned by the hash primitive. -/
abbrev Digest := List Nat

/-- `hash.HashFunc`: `func([]byte) []byte`. -/
abbrev HashFunc := Bytes → Digest

/-- `merkle.hashLeafData` / `merkle.HashLeafData`: prefixes the leaf bytes
with `0x00` and applies the hash function. -/
def hashLeafData (data : Bytes) (hashFunc : HashFunc) : Digest :=
  hashFunc (0 :: data)

/-- `merkle.hashInternalNodes` / `merkle.HashInternalNodes`: prefixes the
concatenation of the two child digests with `0x01` and applies the hash
function. -/
def hashInternalNodes (left right : Digest) (hashFunc : HashFunc) : Digest :=
  hashFunc (1 :: (left ++ right))

/-- `bits.Len` from Go's `math/bits`: the number of bits required to
represent `x`; zero for `x = 0`. -/
def bitsLen (x : Nat) : Nat :=
  if x = 0 then 0 else bitsLen (x / 2) + 1
termination_by x
decreasing_by exact Nat.div_lt_self (Nat.pos_of_ne_zero (by assumption)) (by omega)

/-- `merkle.largestPowerOfTwoLessThan`: `1 << (bits.Len(uint(n-1)) - 1)`.
For the callers' range `n ≥ 2` this is the largest power of two strictly
below `n`.  (For `n ≤ 1` the Go expression shifts by a negative amount and
panics; all callers guard `n ≥ 2`, and the Lean value `1` at `n ≤ 1` is
never relied upon.) -/
def largestPowerOfTwoLessThan (n : Nat) : Nat :=
  1 <<< (bitsLen (n - 1) - 1)

theorem bitsLen_zero : bitsLen 0 = 0 := by
  rw [bitsLen]; simp

theorem bitsLen_of_pos {x : Nat} (hx : x ≠ 0) :
    bitsLen x = bitsLen (x / 2) + 1 := by
  rw [bitsLen]; simp [hx]

theorem bitsLen_pos {x : Nat} (hx : 1 ≤ x) : 1 ≤ bitsLen x := by
  rw [bitsLen_of_pos (by omega)]; omega

/-- For `x ≥ 1`, `2 ^ (bitsLen x - 1) ≤ x < 2 ^ bitsLen x`. -/
theorem bitsLen_bounds :
    ∀ x, 1 ≤ x → 2 ^ (bitsLen x - 1) ≤ x ∧ x < 2 ^ bitsLen x := by
  intro x
  induction x using Nat.strong_induction_on with
  | _ x ih =>
    intro hx
    rcases Nat.lt_or_ge x 2 with h2 | h2
    · have hx1 : x = 1 := by omega
      subst hx1
      rw [bitsLen_of_pos (by omega)]
      norm_num [bitsLen_zero]
    · have hhalf : 1 ≤ x / 2 := Nat.one_le_div_iff (by omega) |>.mpr h2
      have hlt : x / 2 < x := Nat.div_lt_self (by omega) (by omega)
      obtain ⟨hlow, hhigh⟩ := ih (x / 2) hlt hhalf
      have hL : 1 ≤ bitsLen (x / 2) := bitsLen_pos hhalf
      rw [bitsLen_of_pos (by omega)]
      constructor
      · have : 2 ^ (bitsLen (x / 2) + 1 - 1) = 2 * 2 ^ (bitsLen (x / 2) - 1) := by
          rw [Nat.add_sub_cancel, ← Nat.pow_succ']
          congr 1
          omega
        rw [this]
        have hdiv : 2 * (x / 2) ≤ x := Nat.mul_div_le x 2 |>.trans_eq (by ring_nf)
        calc 2 * 2 ^ (bitsLen (x / 2) - 1) ≤ 2 * (x / 2) := by omega
          _ ≤ x := by omega
      · have hpow : 2 ^ (bitsLen (x / 2) + 1) = 2 * 2 ^ bitsLen (x / 2) := by
          rw [← Nat.pow_succ']
        rw [hpow]
        have : x < 2 * (x / 2) + 2 := by omega
        omega

/-- On the guarded range `n ≥ 2`, the split point is the power of two
`2 ^ (bitsLen (n-1) - 1)` and satisfies `split n < n ≤ 2 * split n`. -/
theorem split_spec {n : Nat} (hn : 2 ≤ n) :
    largestPowerOfTwoLessThan n = 2 ^ (bitsLen (n - 1) - 1) ∧
    1 ≤ largestPowerOfTwoLessThan n ∧
    largestPowerOfTwoLessThan n < n ∧
    n ≤ 2 * largestPowerOfTwoLessThan n := by
  have h1 : 1 ≤ n - 1 := by omega
  obtain ⟨hlow, hhigh⟩ := bitsLen_bounds (n - 1) h1
  have hform : largestPowerOfTwoLessThan n = 2 ^ (bitsLen (n - 1) - 1) := by
    unfold largestPowerOfTwoLessThan
    rw [Nat.shiftLeft_eq, one_mul]
  have hB : 1 ≤ bitsLen (n - 1) := bitsLen_pos h1
  refine ⟨hform, ?_, ?_, ?_⟩
  · rw [hform]; exact Nat.one_le_two_pow
  · rw [hform]; omega
  · rw [hform]
    have : 2 * 2 ^ (bitsLen (n - 1) - 1) = 2 ^ (bitsLen (n - 1) - 1 + 1) := by
      rw [← Nat.pow_succ']
    rw [this]
    have heq : bitsLen (n - 1) - 1 + 1 = bitsLen (n - 1) := by omega
    rw [heq]
    omega

theorem split_pos {n : Nat} (hn : 2 ≤ n) : 1 ≤ largestPowerOfTwoLessThan n :=
  (split_spec hn).2.1

theorem split_lt {n : Nat} (hn : 2 ≤ n) : largestPowerOfTwoLessThan n < n :=
  (split_spec hn).2.2.1

theorem le_two_mul_split {n : Nat} (hn : 2 ≤ n) : n ≤ 2 * largestPowerOfTwoLessThan n :=
  (split_spec hn).2.2.2

/-- The split point is the unique power of two `2 ^ j` with
`2 ^ j < n ≤ 2 ^ (j + 1)`. -/
theorem split_unique {n j : Nat} (hn : 2 ≤ n)
    (hlow : 2 ^ j < n) (hhigh : n ≤ 2 ^ (j + 1)) :
    largestPowerOfTwoLessThan n = 2 ^ j := by
  obtain ⟨hform, hpos, hlt, hmul⟩ := split_spec hn
  set e := bitsLen (n - 1) - 1 with he
  rw [hform]
  rcases Nat.lt_trichotomy j e with h | h | h
  · exfalso
    have : 2 ^ (j + 1) ≤ 2 ^ e := Nat.pow_le_pow_right (by omega) (by omega)
    rw [hform] at hlt
    omega
  · rw [h]
  · exfalso
    have h2 : 2 * 2 ^ e = 2 ^ (e + 1) := by rw [← Nat.pow_succ']
    have : 2 ^ (e + 1) ≤ 2 ^ j := Nat.pow_le_pow_right (by omega) (by omega)
    rw [hform] at hmul
    omega

/-- If `k = split n` and `k < m ≤ n` (the "spills into the right half"
branch of the consistency recursion), then `split m = k` as well. -/
theorem split_eq_of_between {n m : Nat} (hn : 2 ≤ n)
    (hlow : largestPowerOfTwoLessThan n < m) (hhigh : m ≤ n) :
    largestPowerOfTwoLessThan m = largestPowerOfTwoLessThan n := by
  obtain ⟨hform, hpos, hlt, hmul⟩ := split_spec hn
  set e := bitsLen (n - 1) - 1 with he
  rw [hform] at hlow hmul ⊢
  have h2 : 2 * 2 ^ e = 2 ^ (e + 1) := by rw [← Nat.pow_succ']
  have hm2 : 2 ≤ m := by
    have : 1 ≤ 2 ^ e := Nat.one_le_two_pow
    omega
  exact split_unique hm2 hlow (by omega)

/-! ## History tree (`merkle.Tree`)

The Go `Node` is a record with `Hash`, `Left`, `Right` and a `Parent`
back-pointer; `buildRecursive` links children and parents so that the node
graph is exactly a binary tree whose in-order leaves are `t.Leaves`.  We
model that graph as the inductive `MTree` (the parent pointer of the
source is recovered by recursion on the tree: walking leaf-to-root via
`Parent` visits exactly the ancestors that top-down recursion descends
through). -/

/-- A node of the history tree: either a leaf carrying its digest, or an
internal node carrying its digest and both children (in the source,
`Left`/`Right` are both present or both absent). -/
inductive MTree where
  | leaf (digest : Digest)
  | node (digest : Digest) (left right : MTree)
deriving DecidableEq

namespace MTree

/-- The `Hash` field of a node. -/
def digest : MTree → Digest
  | .leaf d => d
  | .node d _ _ => d

/-- Number of leaves below a node. -/
def leafCount : MTree → Nat
  | .leaf _ => 1
  | .node _ l r => l.leafCount + r.leafCount

/-- The digests of the leaves below a node, left to right. -/
def leavesOf : MTree → List Digest
  | .leaf d => [d]
  | .node _ l r => l.leavesOf ++ r.leavesOf

theorem leafCount_eq_length_leavesOf : ∀ t : MTree, t.leafCount = t.leavesOf.length
  | .leaf _ => rfl
  | .node _ l r => by
    simp [leafCount, leavesOf, leafCount_eq_length_leavesOf l,
      leafCount_eq_length_leavesOf r]

theorem leafCount_pos : ∀ t : MTree, 1 ≤ t.leafCount
  | .leaf _ => le_refl 1
  | .node _ l r => by
    have := leafCount_pos l
    simp [leafCount]; omega

/-- The hash invariant established by `buildRecursive`: every internal
node's digest is `hashInternalNodes` of its children's digests. -/
def wf (hashFunc : HashFunc) : MTree → Prop
  | .leaf _ => True
  | .node d l r =>
      d = hashInternalNodes l.digest r.digest hashFunc ∧ l.wf hashFunc ∧ r.wf hashFunc

end MTree

/-- `merkle.buildRecursive` (part_007 lines 64–88): a single node is its
own root; otherwise split the node list at `largestPowerOfTwoLessThan n`,
build both halves and hash them into a parent.  (`buildRecursive` is never
called on an empty slice — `build` and `Append` guarantee at least one
leaf; the `[]` case below returns a dummy leaf.) -/
def buildRecursive (hashFunc : HashFunc) : List Digest → MTree
  | [] => .leaf []
  | [d] => .leaf d
  | d₀ :: d₁ :: rest =>
    let ds := d₀ :: d₁ :: rest
    let k := largestPowerOfTwoLessThan ds.length
    let left := buildRecursive hashFunc (ds.take k)
    let right := buildRecursive hashFunc (ds.drop k)
    .node (hashInternalNodes left.digest right.digest hashFunc) left right
termination_by ds => ds.length
decreasing_by
  all_goals
    simp only [List.length_take, List.length_drop, List.length_cons]
    have h2 : 2 ≤ rest.length + 1 + 1 := by omega
    have h3 := split_lt (n := rest.length + 1 + 1) h2
    have h4 := split_pos (n := rest.length + 1 + 1) h2
    omega

theorem buildRecursive_two_le (hashFunc : HashFunc) (ds : List Digest)
    (h2 : 2 ≤ ds.length) :
    buildRecursive hashFunc ds =
      .node (hashInternalNodes
              (buildRecursive hashFunc (ds.take (largestPowerOfTwoLessThan ds.length))).digest
              (buildRecursive hashFunc (ds.drop (largestPowerOfTwoLessThan ds.length))).digest
              hashFunc)
            (buildRecursive hashFunc (ds.take (largestPowerOfTwoLessThan ds.length)))
            (buildRecursive hashFunc (ds.drop (largestPowerOfTwoLessThan ds.length))) := by
  match ds with
  | [] => simp at h2
  | [d] => simp at h2
  | d₀ :: d₁ :: rest => rw [buildRecursive]

theorem buildRecursive_leavesOf_aux (hashFunc : HashFunc) :
    ∀ n : Nat, ∀ ds : List Digest, ds.length ≤ n → ds ≠ [] →
      (buildRecursive hashFunc ds).leavesOf = ds := by
  intro n
  induction n with
  | zero =>
    intro ds hlen hne
    interval_cases h : ds.length
    · exact absurd (List.length_eq_zero.mp h) hne
  | succ n ih =>
    intro ds hlen hne
    match ds with
    | [] => exact absurd rfl hne
    | [d] => simp [buildRecursive, MTree.leavesOf]
    | d₀ :: d₁ :: rest =>
      have h2 : 2 ≤ (d₀ :: d₁ :: rest).length := by simp
      rw [buildRecursive_two_le hashFunc _ h2]
      set ds' := d₀ :: d₁ :: rest with hds
      set k := largestPowerOfTwoLessThan ds'.length with hk
      have hklt : k < ds'.length := split_lt h2
      have hkpos : 1 ≤ k := split_pos h2
      have htake : (ds'.take k).length = k := by
        simp only [List.length_take]; omega
      have hdrop : (ds'.drop k).length = ds'.length - k := by
        simp only [List.length_drop]
      simp only [MTree.leavesOf]
      rw [ih _ (by omega) (by intro h; rw [h] at htake; simp at htake; omega),
          ih _ (by omega) (by intro h; rw [h] at hdrop; simp at hdrop; omega)]
      exact List.take_append_drop k ds'

theorem buildRecursive_leavesOf (hashFunc : HashFunc) (ds : List Digest)
    (hne : ds ≠ []) : (buildRecursive hashFunc ds).leavesOf = ds :=
  buildRecursive_leavesOf_aux hashFunc ds.length ds le_rfl hne

theorem buildRecursive_wf_aux (hashFunc : HashFunc) :
    ∀ n : Nat, ∀ ds : List Digest, ds.length ≤ n →
      (buildRecursive hashFunc ds).wf hashFunc := by
  intro n
  induction n with
  | zero =>
    intro ds hlen
    have : ds = [] := List.length_eq_zero.mp (by omega)
    subst this
    simp [buildRecursive, MTree.wf]
  | succ n ih =>
    intro ds hlen
    match ds with
    | [] => simp [buildRecursive, MTree.wf]
    | [d] => simp [buildRecursive, MTree.wf]
    | d₀ :: d₁ :: rest =>
      have h2 : 2 ≤ (d₀ :: d₁ :: rest).length := by simp
      rw [buildRecursive_two_le hashFunc _ h2]
      set ds' := d₀ :: d₁ :: rest with hds
      set k := largestPowerOfTwoLessThan ds'.length with hk
      have hklt : k < ds'.length := split_lt h2
      have hkpos : 1 ≤ k := split_pos h2
      refine ⟨rfl, ?_, ?_⟩
      · exact ih _ (by simp only [List.length_take]; omega)
      · exact ih _ (by simp only [List.length_drop]; omega)

theorem buildRecursive_wf (hashFunc : HashFunc) (ds : List Digest) :
    (buildRecursive hashFunc ds).wf hashFunc :=
  buildRecursive_wf_aux hashFunc ds.length ds le_rfl

/-- The `merkle.Tree` record (part_007 lines 17–23): the root node, the
ordered leaf digests (`Leaves`, which in the source stores the leaf `Node`
pointers — only their `Hash` fields are ever read), the secondary index
`hash → indices` (`indexMap`, keyed in the source by the hex encoding of
the digest, which is injective, so we key by the digest itself), and the
injected hash function.  The `sync.RWMutex` has no observable effect on
the sequential semantics and is not modelled. -/
structure Tree where
  root : MTree
  leaves : List Digest
  indexMap : Digest → List Nat
  hashFunc : HashFunc

/-- `Tree.build` (part_007 lines 44–62), index-map part.  For each leaf
`i` the source executes `indexMap[hashHex] = append(t.indexMap[hashHex], i)`:
it appends to the entry of the *old* tree's map (`t.indexMap`, still `nil`
during `NewTree`), not to the local `indexMap` being filled — so the entry
for a digest ends up holding only the index of its **last** occurrence. -/
def buildIndexMap (hashFunc : HashFunc) (data : List Bytes) : Digest → List Nat :=
  (data.enum).foldl
    (fun acc (p : Nat × Bytes) =>
      fun h => if h = hashLeafData p.2 hashFunc then [p.1] else acc h)
    (fun _ => [])

/-- `Tree.build` (part_007 lines 44–62): create the leaf digests, the
index map, and the recursively built root. -/
def Tree.build (hashFunc : HashFunc) (data : List Bytes) : Tree :=
  { root := buildRecursive hashFunc (data.map (hashLeafData · hashFunc))
    leaves := data.map (hashLeafData · hashFunc)
    indexMap := buildIndexMap hashFunc data
    hashFunc := hashFunc }

/-- `merkle.NewTree` (part_007 lines 26–41): rejects empty data with the
error `"no data provided"`, otherwise builds the tree.  The `nil`-to-SHA256
defaulting of `hashFunc` is not modelled: the hash function is abstract. -/
def NewTree (hashFunc : HashFunc) (data : List Bytes) : Option Tree :=
  if data = [] then none else some (Tree.build hashFunc data)

/-- `Tree.RootHash` (part_007 lines 91–98).  `NewTree` and `Append` always
install a root, so the `nil`-root branch of the source is unreachable on
trees built by this API and the model returns the root's digest. -/
def Tree.rootHash (t : Tree) : Digest :=
  t.root.digest

/-- `Tree.Append` (part_007 lines 100–116): append the new leaf digest to
the leaf vector, record its position at the end of the index-map entry,
and rebuild the root from scratch over the whole leaf vector. -/
def Tree.append (t : Tree) (data : Bytes) : Tree :=
  let leafHash := hashLeafData data t.hashFunc
  let leaves' := t.leaves ++ [leafHash]
  { root := buildRecursive t.hashFunc leaves'
    leaves := leaves'
    indexMap := fun h =>
      if h = leafHash then t.indexMap h ++ [t.leaves.length] else t.indexMap h
    hashFunc := t.hashFunc }

/-! ### Inclusion proofs (part_008) -/

/-- The leaf-to-root walk of `Tree.GenerateInclusionProof` (part_008 lines
201–217), expressed by recursion on the built tree: starting from leaf
`index`, at every ancestor record the opposite child's digest and whether
that sibling is on the left (`true` iff the walker is the right child).
The source walks upward via `Parent` pointers appending one entry per
level, so the leaf-level sibling comes first; the recursion below appends
the sibling of the current root *after* the proof of the subtree, which
yields exactly that order. -/
def inclusionWalk : MTree → Nat → List Digest × List Bool
  | .leaf _, _ => ([], [])
  | .node _ l r, i =>
    if i < l.leafCount then
      let p := inclusionWalk l i
      (p.1 ++ [r.digest], p.2 ++ [false])
    else
      let p := inclusionWalk r (i - l.leafCount)
      (p.1 ++ [l.digest], p.2 ++ [true])

/-- `Tree.GenerateInclusionProof` (part_008 lines 193–221): `index` out of
range (`index < 0 || index >= len(t.Leaves)`, here `Nat` so only the upper
bound) yields the error `"invalid index"`. -/
def Tree.generateInclusionProof (t : Tree) (index : Nat) :
    Option (List Digest × List Bool) :=
  if index < t.leaves.length then some (inclusionWalk t.root index) else none

/-- `Tree.GenerateInclusionProofByData` (part_008 lines 223–234): look up
the digest of the data in the index map and generate a proof for the head
of the stored index list; an empty entry is the error
`"leaf not found in the tree"`. -/
def Tree.generateInclusionProofByData (t : Tree) (data : Bytes) :
    Option (List Digest × List Bool) :=
  match t.indexMap (hashLeafData data t.hashFunc) with
  | [] => none
  | i :: _ => t.generateInclusionProof i

/-- The loop of `merkle.VerifyInclusionProof` (part_008 lines 244–250):
`for i, siblingHash := range proof.Siblings { ... proof.Left[i] ... }`.
The source indexes `proof.Left[i]` without a bounds check, so when `Left`
runs out before `Siblings` the Go code panics with an index-out-of-range
error — modelled by `none`; entries of `Left` beyond `len(Siblings)` are
never read. -/
def verifyInclusionLoop (hashFunc : HashFunc) :
    Digest → List Digest → List Bool → Option Digest
  | h, [], _ => some h
  | _, _ :: _, [] => none
  | h, s :: ss, b :: bs =>
    verifyInclusionLoop hashFunc
      (if b then hashInternalNodes s h hashFunc else hashInternalNodes h s hashFunc)
      ss bs

/-- `merkle.VerifyInclusionProof` (part_008 lines 237–253): hash the leaf
data with the `0x00` prefix, fold the siblings over it according to the
`Left` flags, and compare with the expected root.  `none` is the source's
panic (see `verifyInclusionLoop`). -/
def VerifyInclusionProof (leafData : Bytes) (siblings : List Digest)
    (left : List Bool) (rootHash : Digest) (hashFunc : HashFunc) : Option Bool :=
  (verifyInclusionLoop hashFunc (hashLeafData leafData hashFunc) siblings left).map
    (fun h => decide (h = rootHash))

/-! ### Consistency proofs (`pkg/merkle/consistency.go`)

Go `int` arguments (`m`, `n`, `start`) are modelled as `Nat`; the guard
`m <= 0` of the source becomes `m = 0`, which covers the same rejected
calls on the non-negative range.  Where the source would panic (index out
of range, nil-pointer dereference while navigating, or the negative shift
inside `largestPowerOfTwoLessThan(n)` for `n ≤ 1`), the model returns
`none`; all such points are unreachable from the guarded entry points, as
the theorems below establish. -/

/-- `Tree.findHashTopDown` (consistency.go lines 57–73): navigate from a
node covering `[nodeStart, nodeStart+nodeN)` towards the subtree covering
`[targetStart, targetStart+targetN)` and return its pre-computed digest.
Descending below a leaf dereferences a nil child pointer in the source —
`none` here. -/
def findHashTopDown : MTree → Nat → Nat → Nat → Nat → Option Digest
  | t, nodeStart, nodeN, targetStart, targetN =>
    if nodeStart = targetStart ∧ nodeN = targetN then some t.digest
    else
      match t with
      | .leaf _ => none
      | .node _ l r =>
        let k := largestPowerOfTwoLessThan nodeN
        if targetStart < nodeStart + k then
          findHashTopDown l nodeStart k targetStart targetN
        else
          findHashTopDown r (nodeStart + k) (nodeN - k) targetStart targetN

/-- `Tree.subtreeHash` (consistency.go lines 48–54): a single leaf is read
from the leaf vector, anything larger is located top-down from the root. -/
def Tree.subtreeHash (t : Tree) (start n : Nat) : Option Digest :=
  if n = 1 then t.leaves[start]?
  else findHashTopDown t.root 0 t.leaves.length start n

/-- `Tree.subProofRecursively` (consistency.go lines 29–46): the RFC 6962
consistency sub-proof.  `b` records whether the recursion is still on the
spine that formed the old root. -/
def Tree.subProofRecursively (t : Tree) (m start n : Nat) (b : Bool) :
    Option (List Digest) :=
  if m = n then
    if b then some []
    else (t.subtreeHash start n).map (fun h => [h])
  else if hn : n ≤ 1 then
    none
  else
    let k := largestPowerOfTwoLessThan n
    if m ≤ k then
      (t.subProofRecursively m start k b).bind fun proof =>
        (t.subtreeHash (start + k) (n - k)).map fun rightHash =>
          proof ++ [rightHash]
    else
      (t.subProofRecursively (m - k) (start + k) (n - k) false).bind fun proof =>
        (t.subtreeHash start k).map fun leftHash =>
          proof ++ [leftHash]
termination_by n
decreasing_by
  · have := split_lt (n := n) (by omega)
    omega
  · have := split_pos (n := n) (by omega)
    omega

/-- `Tree.GenerateConsistencyProof` (consistency.go lines 16–26): rejects
`m <= 0 || m > n` with an error, otherwise emits `subProof(m, 0, n, true)`. -/
def Tree.generateConsistencyProof (t : Tree) (m : Nat) : Option (List Digest) :=
  let n := t.leaves.length
  if m = 0 ∨ m > n then none
  else t.subProofRecursively m 0 n true

/-- `merkle.verifySubProof` (consistency.go lines 107–147): reconstruct
the old and new roots for a subtree of size `n` containing the first `m`
old leaves, consuming proof hashes in order.  Returns
`(computedOld, computedNew, remainingHashes)`; `none` is the source's
`"proof too short"` error (and, for the unguarded `n ≤ 1 ∧ m ≠ n` zone,
its negative-shift panic inside `largestPowerOfTwoLessThan`). -/
def verifySubProof (hashFunc : HashFunc) (m n : Nat) (b : Bool)
    (proofHashes : List Digest) (oldRoot : Digest) :
    Option (Digest × Digest × List Digest) :=
  if m = n then
    if b then some (oldRoot, oldRoot, proofHashes)
    else
      match proofHashes with
      | [] => none
      | h :: rest => some (h, h, rest)
  else if hn : n ≤ 1 then
    none
  else
    let k := largestPowerOfTwoLessThan n
    if m ≤ k then
      (verifySubProof hashFunc m k b proofHashes oldRoot).bind
        fun (res : Digest × Digest × List Digest) =>
          match res.2.2 with
          | [] => none
          | newRight :: rest =>
            some (res.1, hashInternalNodes res.2.1 newRight hashFunc, rest)
    else
      (verifySubProof hashFunc (m - k) (n - k) false proofHashes oldRoot).bind
        fun (res : Digest × Digest × List Digest) =>
          match res.2.2 with
          | [] => none
          | leftHash :: rest =>
            some (hashInternalNodes leftHash res.1 hashFunc,
                  hashInternalNodes leftHash res.2.1 hashFunc, rest)
termination_by n
decreasing_by
  · have := split_lt (n := n) (by omega)
    omega
  · have := split_pos (n := n) (by omega)
    omega

/-- `merkle.VerifyConsistencyProof` (consistency.go lines 81–104): the
`m == n` fast path accepts iff the roots agree and the proof is empty;
out-of-range `m` is rejected; otherwise the proof must reconstruct with
no remaining hashes and both reconstructed roots must match. -/
def VerifyConsistencyProof (m n : Nat) (oldRoot newRoot : Digest)
    (proofHashes : List Digest) (hashFunc : HashFunc) : Bool :=
  if m = n then decide (oldRoot = newRoot) && decide (proofHashes = [])
  else if m = 0 ∨ m > n then false
  else
    match verifySubProof hashFunc m n true proofHashes oldRoot with
    | none => false
    | some (computedOld, computedNew, remaining) =>
      decide (remaining = []) && decide (computedOld = oldRoot) &&
        decide (computedNew = newRoot)

/-! ## Merkle Mountain Range (`pkg/hash/hash_test.go`, package `mmr`) -/

/-- `mmr.Node`: digest, optional children, and the peak height (0 for
leaves, +1 per merge). -/
inductive MNode where
  | mk (digest : Digest) (left right : Option MNode) (height : Nat)

namespace MNode

def digest : MNode → Digest
  | .mk d _ _ _ => d

def height : MNode → Nat
  | .mk _ _ _ h => h

end MNode

/-- `mmr.MMR`: the ordered peak list and the number of appended leaves
(`size`).  As with `Tree`, the lock and the stored hash function are not
part of the sequential data; the hash function is passed explicitly. -/
structure MMR where
  peaks : List MNode
  size : Nat

/-- `mmr.NewMMR`: empty peak list, zero size. -/
def NewMMR : MMR := { peaks := [], size := 0 }

/-- The merge loop of `mmr.Append` (lines 101–117 of the `mmr` source):
`for len(m.peaks) > 0 { lastPeak := m.peaks[len-1]; if lastPeak.Height !=
newNode.Height { break }; pop; merge }`.  The loop walks the peak list
from its right end, so it is phrased here on the *reversed* peak list
(head = rightmost peak); the merged node keeps the popped peak on the
left and gets height `lastPeak.Height + 1`. -/
def mergeLoop (hashFunc : HashFunc) : List MNode → MNode → List MNode
  | [], node => [node]
  | p :: rest, node =>
    if p.height = node.height then
      mergeLoop hashFunc rest
        (.mk (hashInternalNodes p.digest node.digest hashFunc) (some p) (some node)
          (p.height + 1))
    else node :: p :: rest

/-- `mmr.Append` (lines 85–121): reject empty data with the error
`"empty leaf not allowed"`; hash the leaf bytes **directly** (no `0x00`
prefix); bump `size`; run the merge loop; push the final peak. -/
def MMR.append (m : MMR) (data : Bytes) (hashFunc : HashFunc) : Option MMR :=
  if data = [] then none
  else
    let newNode : MNode := .mk (hashFunc data) none none 0
    some { peaks := (mergeLoop hashFunc m.peaks.reverse newNode).reverse
           size := m.size + 1 }

/-- `mmr.RootHash` (lines 125–138): `nil` for an empty MMR; otherwise
start from the rightmost peak's digest and fold the remaining peaks from
right to left under the internal-node hash. -/
def MMR.rootHash (m : MMR) (hashFunc : HashFunc) : Option Digest :=
  match m.peaks.getLast? with
  | none => none
  | some lastPeak =>
    some (m.peaks.dropLast.foldr
      (fun p acc => hashInternalNodes p.digest acc hashFunc)
      lastPeak.digest)

/-- Sequence of appends starting from a given MMR (used to state the
structural invariants after `k` appends). -/
def MMR.appendAll (m : MMR) (items : List Bytes) (hashFunc : HashFunc) :
    Option MMR :=
  match items with
  | [] => some m
  | d :: rest => (m.append d hashFunc).bind fun m' => m'.appendAll rest hashFunc

/-- Sum over a peak list of `2 ^ height`. -/
def peaksSize (ps : List MNode) : Nat :=
  (ps.map (fun p => 2 ^ p.height)).sum

/-! ## A concrete injective hash function

Used by the witness theorems: an injective `HashFunc` with constant output
length 1 (the digest is a single "byte" holding an injective encoding of
the input).  Everything is executable so that witnesses can be checked by
evaluation. -/

/-- Injective encoding of a byte string into a single natural number. -/
def encBytes (xs : Bytes) : Nat :=
  xs.foldr (fun a acc => Nat.pair a acc + 1) 0

theorem encBytes_injective : Function.Injective encBytes := by
  intro xs
  induction xs with
  | nil =>
    intro ys h
    cases ys with
    | nil => rfl
    | cons b bs => simp [encBytes] at h
  | cons a as ih =>
    intro ys h
    cases ys with
    | nil => simp [encBytes] at h
    | cons b bs =>
      simp only [encBytes, List.foldr_cons] at h
      have h0 : Nat.pair a (List.foldr (fun a acc => Nat.pair a acc + 1) 0 as)
          = Nat.pair b (List.foldr (fun a acc => Nat.pair a acc + 1) 0 bs) := by
        omega
      have h' := Nat.pair_eq_pair.mp h0
      have h1 : a = b := h'.1
      have h2 : as = bs := by
        apply ih
        simpa [encBytes] using h'.2
      rw [h1, h2]

/-- The concrete hash function for witnesses: constant output length 1,
injective. -/
def encHash : HashFunc := fun xs => [encBytes xs]

theorem encHash_injective : Function.Injective encHash := by
  intro xs ys h
  simp only [encHash, List.cons.injEq] at h
  exact encBytes_injective h.1

theorem encHash_length (xs : Bytes) : (encHash xs).length = 1 := rfl

/-! ## Lemmas about inclusion proofs -/

theorem inclusionWalk_lengths :
    ∀ (t : MTree) (i : Nat),
      (inclusionWalk t i).1.length = (inclusionWalk t i).2.length
  | .leaf _, _ => rfl
  | .node _ l r, i => by
    simp only [inclusionWalk]
    by_cases h : i < l.leafCount
    · simp [h, inclusionWalk_lengths l i]
    · simp [h, inclusionWalk_lengths r (i - l.leafCount)]

theorem verifyInclusionLoop_append (hashFunc : HashFunc) :
    ∀ (s : List Digest) (b : List Bool) (h : Digest) (x : Digest) (y : Bool),
      s.length = b.length →
      verifyInclusionLoop hashFunc h (s ++ [x]) (b ++ [y]) =
        (verifyInclusionLoop hashFunc h s b).map
          (fun h' => if y then hashInternalNodes x h' hashFunc
                     else hashInternalNodes h' x hashFunc) := by
  intro s
  induction s with
  | nil =>
    intro b h x y hlen
    have : b = [] := List.length_eq_zero.mp (by simpa using hlen.symm)
    subst this
    cases y <;> simp [verifyInclusionLoop]
  | cons s₀ ss ih =>
    intro b h x y hlen
    match b with
    | [] => simp at hlen
    | b₀ :: bs =>
      simp only [List.cons_append, verifyInclusionLoop]
      exact ih bs _ x y (by simpa using hlen)

/-- Folding a generated inclusion proof from the `i`-th leaf digest of a
hash-consistent tree reconstructs the root digest. -/
theorem inclusionWalk_correct (hashFunc : HashFunc) :
    ∀ t : MTree, t.wf hashFunc → ∀ (i : Nat) (d : Digest), t.leavesOf[i]? = some d →
      verifyInclusionLoop hashFunc d
        (inclusionWalk t i).1 (inclusionWalk t i).2 = some t.digest := by
  intro t
  induction t with
  | leaf d₀ =>
    intro _ i d hd
    match i, hd with
    | 0, hd =>
      simp only [MTree.leavesOf, List.getElem?_cons_zero, Option.some.injEq] at hd
      subst hd
      simp [inclusionWalk, verifyInclusionLoop, MTree.digest]
    | Nat.succ j, hd =>
      simp [MTree.leavesOf] at hd
  | node dg l r ihl ihr =>
    intro hwf i d hd
    obtain ⟨hdg, hwl, hwr⟩ := hwf
    have hlc : l.leafCount = l.leavesOf.length := MTree.leafCount_eq_length_leavesOf l
    simp only [MTree.leavesOf] at hd
    simp only [inclusionWalk]
    by_cases h : i < l.leafCount
    · simp only [h, if_true]
      rw [List.getElem?_append_left (by omega)] at hd
      rw [verifyInclusionLoop_append hashFunc _ _ _ _ _ (inclusionWalk_lengths l i),
        ihl hwl i d hd]
      simp [MTree.digest, hdg]
    · simp only [h, if_false]
      rw [List.getElem?_append_right (by omega)] at hd
      rw [verifyInclusionLoop_append hashFunc _ _ _ _ _
          (inclusionWalk_lengths r (i - l.leafCount)),
        ihr hwr (i - l.leafCount) d (by rw [← hd]; congr 1; omega)]
      simp [MTree.digest, hdg]

/-- C1 — generating an inclusion proof for leaf `i` of the tree built over
`data` and verifying it against that tree's root digest (with the same
hash function) yields `some true`, and on a single-leaf tree the
generated proof has empty siblings and empty left flags. -/
theorem inclusion_roundtrip (hashFunc : HashFunc) (data : List Bytes) (i : Nat)
    (hne : data ≠ []) (hi : i < data.length) :
    ((Tree.build hashFunc data).generateInclusionProof i).bind
        (fun pr => VerifyInclusionProof (data.getD i []) pr.1 pr.2
          (Tree.build hashFunc data).rootHash hashFunc) = some true
    ∧ (data.length = 1 →
        (Tree.build hashFunc data).generateInclusionProof i = some ([], [])) := by
  have hleaves : (Tree.build hashFunc data).leaves =
      data.map (hashLeafData · hashFunc) := rfl
  have hlen : (Tree.build hashFunc data).leaves.length = data.length := by
    simp [hleaves]
  have hmapne : data.map (hashLeafData · hashFunc) ≠ [] := by
    simp [hne]
  have hroot : (Tree.build hashFunc data).root =
      buildRecursive hashFunc (data.map (hashLeafData · hashFunc)) := rfl
  have hlv : (Tree.build hashFunc data).root.leavesOf =
      data.map (hashLeafData · hashFunc) := by
    rw [hroot]
    exact buildRecursive_leavesOf hashFunc _ hmapne
  constructor
  · rw [Tree.generateInclusionProof, if_pos (by omega)]
    rw [Option.some_bind]
    have hstart : (Tree.build hashFunc data).root.leavesOf[i]? =
        some (hashLeafData (data.getD i []) hashFunc) := by
      rw [hlv, List.getElem?_eq_getElem (by simp; omega)]
      have : data.getD i [] = data[i] := List.getD_eq_getElem data [] hi
      rw [this]
      simp
    rw [VerifyInclusionProof,
      inclusionWalk_correct hashFunc _ (hroot ▸ buildRecursive_wf hashFunc _) i _ hstart]
    simp [Tree.rootHash]
  · intro h1
    match data, h1 with
    | [d], _ =>
      have : i = 0 := by omega
      subst this
      rw [Tree.generateInclusionProof, if_pos (by simp [hleaves])]
      simp [Tree.build, buildRecursive, inclusionWalk]

/-- Witness for C1 at a concrete three-leaf tree and leaf index 2. -/
theorem inclusion_roundtrip_witness :
    ((Tree.build encHash [[1], [2], [3]]).generateInclusionProof 2).bind
        (fun pr => VerifyInclusionProof (([[1], [2], [3]] : List Bytes).getD 2 []) pr.1 pr.2
          (Tree.build encHash [[1], [2], [3]]).rootHash encHash) = some true
    ∧ (([[1], [2], [3]] : List Bytes).length = 1 →
        (Tree.build encHash [[1], [2], [3]]).generateInclusionProof 2 = some ([], [])) :=
  inclusion_roundtrip encHash [[1], [2], [3]] 2 (by decide) (by decide)

/-- C10 — calling `VerifyInclusionProof` with an empty proof (both
`Siblings` and `Left` empty) consults no tree state: it returns `true`
exactly when the leaf digest `H(0x00 ‖ leafData)` equals the expected
root. -/
theorem verify_empty_proof_iff (hashFunc : HashFunc) (leafData : Bytes)
    (expectedRoot : Digest) :
    VerifyInclusionProof leafData [] [] expectedRoot hashFunc = some true ↔
      hashLeafData leafData hashFunc = expectedRoot := by
  simp [VerifyInclusionProof, verifyInclusionLoop]

/-- C4 — the source contradicts the claim on length-mismatched proofs.
With `Siblings = [[0]]` and `Left = []` the Go loop evaluates
`proof.Left[0]` out of range and panics (`none` in the model) instead of
returning `false`; with `Siblings = []` and `Left = [true]` the extra
flag is silently ignored and verification can even return `true`. -/
theorem verify_length_mismatch_bug :
    VerifyInclusionProof [] [[0]] [] [0] encHash = none
    ∧ VerifyInclusionProof [7] [] [true] (hashLeafData [7] encHash) encHash =
        some true := by
  exact ⟨rfl, by decide⟩

/-- C6 — appending `x` to the tree built from `d` yields the same root
hash as building a fresh tree from `d ++ [x]`. -/
theorem append_eq_rebuild (hashFunc : HashFunc) (d : List Bytes) (x : Bytes)
    (hne : d ≠ []) :
    (NewTree hashFunc d).map (fun t => (t.append x).rootHash) =
      (NewTree hashFunc (d ++ [x])).map Tree.rootHash := by
  have key : ((Tree.build hashFunc d).append x).rootHash
      = (Tree.build hashFunc (d ++ [x])).rootHash := by
    show (buildRecursive hashFunc
      ((d.map (hashLeafData · hashFunc)) ++ [hashLeafData x hashFunc])).digest =
      (buildRecursive hashFunc ((d ++ [x]).map (hashLeafData · hashFunc))).digest
    rw [List.map_append]
    rfl
  rw [NewTree, if_neg hne, NewTree, if_neg (by simp)]
  simp only [Option.map_some']
  rw [key]

/-- Witness for C6 at a concrete one-leaf tree. -/
theorem append_eq_rebuild_witness :
    (NewTree encHash [[1]]).map (fun t => (t.append [2]).rootHash) =
      (NewTree encHash [[1], [2]]).map Tree.rootHash :=
  append_eq_rebuild encHash [[1]] [2] (by decide)

theorem split_two : largestPowerOfTwoLessThan 2 = 1 := by
  rw [largestPowerOfTwoLessThan,
    show (2 : Nat) - 1 = 1 from rfl, bitsLen_of_pos (by omega), bitsLen_zero]
  rfl

theorem buildRecursive_singleton (hashFunc : HashFunc) (d : Digest) :
    buildRecursive hashFunc [d] = .leaf d := by
  rw [buildRecursive]

/-- C5 — counterexample on duplicate leaves supplied to `NewTree`.
`Tree.build` overwrites the index-map entry on every occurrence (it
appends to the old tree's `nil` map, see `buildIndexMap`), so for the
two-leaf tree over duplicate data `GenerateInclusionProofByData` returns
the proof for index 1 — the **last** occurrence (`Left = [true]`) — while
the proof for the first occurrence, index 0, is distinct
(`Left = [false]`). -/
theorem byData_returns_last_occurrence :
    (Tree.build encHash [[5], [5]]).generateInclusionProofByData [5] =
        some ([[962]], [true])
    ∧ (Tree.build encHash [[5], [5]]).generateInclusionProof 0 =
        some ([[962]], [false]) := by
  have hmap : ([[5], [5]] : List Bytes).map (hashLeafData · encHash) =
      [[962], [962]] := by decide
  have hroot : (Tree.build encHash [[5], [5]]).root =
      MTree.node (hashInternalNodes [962] [962] encHash)
        (.leaf [962]) (.leaf [962]) := by
    show buildRecursive encHash (([[5], [5]] : List Bytes).map (hashLeafData · encHash)) = _
    rw [hmap, buildRecursive_two_le encHash [[962], [962]] (by decide)]
    norm_num [split_two, buildRecursive_singleton, MTree.digest]
  have hgen1 : (Tree.build encHash [[5], [5]]).generateInclusionProof 1 =
      some (inclusionWalk (Tree.build encHash [[5], [5]]).root 1) := by
    rw [Tree.generateInclusionProof, if_pos]
    show 1 < (([[5], [5]] : List Bytes).map (hashLeafData · encHash)).length
    decide
  have hgen0 : (Tree.build encHash [[5], [5]]).generateInclusionProof 0 =
      some (inclusionWalk (Tree.build encHash [[5], [5]]).root 0) := by
    rw [Tree.generateInclusionProof, if_pos]
    show 0 < (([[5], [5]] : List Bytes).map (hashLeafData · encHash)).length
    decide
  constructor
  · have hidx : (Tree.build encHash [[5], [5]]).indexMap
        (hashLeafData [5] encHash) = [1] := by decide
    rw [Tree.generateInclusionProofByData]
    show (match (Tree.build encHash [[5], [5]]).indexMap
        (hashLeafData [5] encHash) with
      | [] => none
      | i :: _ => (Tree.build encHash [[5], [5]]).generateInclusionProof i) = _
    rw [hidx]
    show (Tree.build encHash [[5], [5]]).generateInclusionProof 1 = _
    rw [hgen1, hroot]
    decide
  · rw [hgen0, hroot]
    decide

/-! ## MMR theorems -/

/-- The append algorithm exactly as worded in the specification (§4.4):
"While the rightmost existing peak has the same height as the pending new
peak: pop it; form a merged peak with digest
`nodeDigest(poppedPeak.digest, newPeak.digest)` (older peak on the left)
and height `newPeak.height + 1`."  Stated on the peak list directly (the
rightmost peak is `getLast`), to be compared with the source's
`mergeLoop`. -/
def specMerge (hashFunc : HashFunc) (peaks : List MNode) (node : MNode) :
    List MNode × MNode :=
  match h : peaks.getLast? with
  | some p =>
    if p.height = node.height then
      specMerge hashFunc peaks.dropLast
        (.mk (hashInternalNodes p.digest node.digest hashFunc) (some p) (some node)
          (node.height + 1))
    else (peaks, node)
  | none => (peaks, node)
termination_by peaks.length
decreasing_by
  have hne : peaks ≠ [] := by
    intro hc
    rw [hc] at h
    simp at h
  have := List.length_dropLast peaks
  have : 1 ≤ peaks.length := List.length_pos.mpr hne
  simp [List.length_dropLast]
  omega

/-- The specification's append: reject empty data, hash the raw bytes
(no `0x00` prefix) into a height-0 peak, run the merge loop of §4.4, push
the final peak, increment the leaf count. -/
def MMR.appendSpec (m : MMR) (data : Bytes) (hashFunc : HashFunc) : Option MMR :=
  if data = [] then none
  else
    let p := specMerge hashFunc m.peaks (.mk (hashFunc data) none none 0)
    some { peaks := p.1 ++ [p.2], size := m.size + 1 }

theorem specMerge_nil (hashFunc : HashFunc) (node : MNode) :
    specMerge hashFunc [] node = ([], node) := by
  rw [specMerge]
  split
  · next p' hp' => simp at hp'
  · rfl

theorem specMerge_concat (hashFunc : HashFunc) (ps : List MNode) (p node : MNode) :
    specMerge hashFunc (ps ++ [p]) node =
      if p.height = node.height then
        specMerge hashFunc ps
          (.mk (hashInternalNodes p.digest node.digest hashFunc) (some p) (some node)
            (node.height + 1))
      else (ps ++ [p], node) := by
  rw [specMerge]
  split
  · next p' hp' =>
    rw [List.getLast?_concat] at hp'
    obtain rfl : p = p' := by injection hp'
    rw [List.dropLast_concat]
  · next hp' =>
    rw [List.getLast?_concat] at hp'
    exact absurd hp' (by simp)

theorem mergeLoop_eq_specMerge (hashFunc : HashFunc) :
    ∀ (rl : List MNode) (node : MNode),
      (mergeLoop hashFunc rl node).reverse =
        (specMerge hashFunc rl.reverse node).1 ++ [(specMerge hashFunc rl.reverse node).2] := by
  intro rl
  induction rl with
  | nil =>
    intro node
    have h1 : mergeLoop hashFunc [] node = [node] := by rw [mergeLoop]
    rw [List.reverse_nil, h1, specMerge_nil]
    rfl
  | cons p rest ih =>
    intro node
    simp only [List.reverse_cons, specMerge_concat]
    by_cases hh : p.height = node.height
    · rw [if_pos hh]
      rw [mergeLoop, if_pos hh]
      rw [ih]
      congr 3 <;> rw [hh]
    · rw [if_neg hh]
      rw [mergeLoop, if_neg hh]
      simp

/-- C7 — `MMR.Append` implements the specified algorithm: empty data is
rejected with an error (no new MMR state is produced), and otherwise the
result coincides with the spec's procedure — raw `H(data)` leaf digest
(no `0x00` prefix), repeated pop-and-merge of the rightmost equal-height
peak with the older peak on the left and the height incremented, then
push and increment the leaf count. -/
theorem append_eq_appendSpec (hashFunc : HashFunc) (m : MMR) (data : Bytes) :
    MMR.append m data hashFunc = MMR.appendSpec m data hashFunc
    ∧ MMR.append m [] hashFunc = none := by
  constructor
  · by_cases hd : data = []
    · rw [MMR.append, MMR.appendSpec, if_pos hd, if_pos hd]
    · have heq := mergeLoop_eq_specMerge hashFunc m.peaks.reverse
        (.mk (hashFunc data) none none 0)
      rw [List.reverse_reverse] at heq
      simp only [MMR.append, MMR.appendSpec, if_neg hd]
      rw [heq]
  · rw [MMR.append, if_pos rfl]

/-- C8 — `MMR.RootHash` is the right-to-left fold of the peak digests
under the internal-node hash: `none` on an empty MMR, the peak's own
digest for a single peak, and for `p :: rest` (with `rest` non-empty) the
digest `nodeDigest(p.digest, RootHash(rest))`. -/
theorem rootHash_fold (hashFunc : HashFunc) (s s' s'' : Nat) (p : MNode)
    (rest : List MNode) (hne : rest ≠ []) :
    MMR.rootHash ⟨[], s⟩ hashFunc = none
    ∧ MMR.rootHash ⟨[p], s'⟩ hashFunc = some p.digest
    ∧ MMR.rootHash ⟨p :: rest, s''⟩ hashFunc =
        (MMR.rootHash ⟨rest, s''⟩ hashFunc).map
          (fun acc => hashInternalNodes p.digest acc hashFunc) := by
  refine ⟨rfl, rfl, ?_⟩
  obtain ⟨q, tail, rfl⟩ : ∃ q tail, rest = q :: tail := by
    match rest with
    | r :: t => exact ⟨r, t, rfl⟩
  have hlp : (q :: tail).getLast? = some ((q :: tail).getLast (by simp)) :=
    List.getLast?_eq_getLast _ (by simp)
  rw [MMR.rootHash, MMR.rootHash, List.getLast?_cons_cons, hlp]
  simp only [Option.map_some']
  congr 1

/-- Witness for C8 at two concrete peaks. -/
theorem rootHash_fold_witness :
    MMR.rootHash ⟨[], 0⟩ encHash = none
    ∧ MMR.rootHash ⟨[.mk [1] none none 0], 0⟩ encHash = some (MNode.mk [1] none none 0).digest
    ∧ MMR.rootHash ⟨.mk [1] none none 0 :: [.mk [2] none none 0], 0⟩ encHash =
        (MMR.rootHash ⟨[.mk [2] none none 0], 0⟩ encHash).map
          (fun acc => hashInternalNodes (MNode.mk [1] none none 0).digest acc encHash) :=
  rootHash_fold encHash 0 0 0 (.mk [1] none none 0) [.mk [2] none none 0]
    (List.cons_ne_nil _ _)

/-! ### MMR invariants (C9) -/

theorem mergeLoop_invariant (hashFunc : HashFunc) :
    ∀ (rl : List MNode) (node : MNode),
      List.Chain' (fun a b => a.height < b.height) rl →
      (∀ p, rl.head? = some p → node.height ≤ p.height) →
      List.Chain' (fun a b => a.height < b.height) (mergeLoop hashFunc rl node)
      ∧ peaksSize (mergeLoop hashFunc rl node) = 2 ^ node.height + peaksSize rl := by
  intro rl
  induction rl with
  | nil =>
    intro node _ _
    rw [mergeLoop]
    refine ⟨List.chain'_singleton _, ?_⟩
    simp [peaksSize]
  | cons p rest ih =>
    intro node hchain hhead
    rw [List.chain'_cons'] at hchain
    obtain ⟨hph, hrest⟩ := hchain
    by_cases hh : p.height = node.height
    · rw [mergeLoop, if_pos hh]
      set node' : MNode := .mk (hashInternalNodes p.digest node.digest hashFunc)
        (some p) (some node) (p.height + 1) with hnode'
      have hh' : node'.height = p.height + 1 := rfl
      obtain ⟨hc, hsz⟩ := ih node' hrest (by
        intro q hq
        have := hph q hq
        rw [hh']
        omega)
      refine ⟨hc, ?_⟩
      rw [hsz]
      have h1 : node'.height = node.height + 1 := by rw [hh', hh]
      have h2 : peaksSize (p :: rest) = 2 ^ node.height + peaksSize rest := by
        simp [peaksSize, hh]
      rw [h1, h2, pow_succ]
      ring
    · rw [mergeLoop, if_neg hh]
      have hlt : node.height < p.height := by
        have := hhead p rfl
        omega
      refine ⟨?_, ?_⟩
      · rw [List.chain'_cons]
        exact ⟨hlt, List.chain'_cons'.mpr ⟨hph, hrest⟩⟩
      · simp [peaksSize]

/-- The structural invariant of the MMR: peak heights strictly decrease
from left to right, and the `2^height` weights sum to the recorded leaf
count. -/
def mmrInv (m : MMR) : Prop :=
  List.Chain' (fun a b => b.height < a.height) m.peaks ∧ peaksSize m.peaks = m.size

theorem peaksSize_reverse (ps : List MNode) : peaksSize ps.reverse = peaksSize ps := by
  simp [peaksSize, List.sum_reverse]

theorem append_preserves_inv (hashFunc : HashFunc) (m m' : MMR) (data : Bytes)
    (hinv : mmrInv m) (happ : MMR.append m data hashFunc = some m') : mmrInv m' := by
  obtain ⟨hchain, hsize⟩ := hinv
  by_cases hd : data = []
  · rw [MMR.append, if_pos hd] at happ
    exact absurd happ (by simp)
  · rw [MMR.append, if_neg hd] at happ
    set node : MNode := .mk (hashFunc data) none none 0 with hnode
    have hrevchain : List.Chain' (fun a b => a.height < b.height) m.peaks.reverse := by
      rw [List.chain'_reverse]
      exact hchain
    obtain ⟨hc, hsz⟩ := mergeLoop_invariant hashFunc m.peaks.reverse node hrevchain
      (by intro q _; exact Nat.zero_le _)
    obtain rfl : m' = ⟨(mergeLoop hashFunc m.peaks.reverse node).reverse, m.size + 1⟩ := by
      injection happ with h
      exact h.symm
    constructor
    · show List.Chain' _ (mergeLoop hashFunc m.peaks.reverse node).reverse
      rw [List.chain'_reverse]
      exact hc
    · show peaksSize (mergeLoop hashFunc m.peaks.reverse node).reverse = m.size + 1
      rw [peaksSize_reverse, hsz, peaksSize_reverse]
      have hn0 : node.height = 0 := rfl
      rw [hn0, hsize]
      omega

theorem appendAll_inv (hashFunc : HashFunc) :
    ∀ (items : List Bytes) (m : MMR), (∀ d ∈ items, d ≠ []) →
      ∃ m', MMR.appendAll m items hashFunc = some m'
        ∧ (mmrInv m → mmrInv m') ∧ m'.size = m.size + items.length := by
  intro items
  induction items with
  | nil =>
    intro m _
    exact ⟨m, rfl, fun h => h, by simp⟩
  | cons d rest ih =>
    intro m hne
    have hd : d ≠ [] := hne d (by simp)
    have h1 : MMR.append m d hashFunc =
        some ⟨(mergeLoop hashFunc m.peaks.reverse (.mk (hashFunc d) none none 0)).reverse,
          m.size + 1⟩ := by
      rw [MMR.append, if_neg hd]
    set m1 : MMR := ⟨(mergeLoop hashFunc m.peaks.reverse
      (.mk (hashFunc d) none none 0)).reverse, m.size + 1⟩ with hm1
    obtain ⟨m', hall, hinv, hsz⟩ := ih m1 (by intro x hx; exact hne x (by simp [hx]))
    refine ⟨m', ?_, ?_, ?_⟩
    · rw [MMR.appendAll, h1, Option.some_bind]
      exact hall
    · intro hinvm
      exact hinv (append_preserves_inv hashFunc m m1 d hinvm h1)
    · rw [hsz]
      show m.size + 1 + rest.length = m.size + (rest.length + 1)
      omega

/-- C9 — after `k` successful appends starting from `NewMMR` (every
appended leaf non-empty), the peak heights strictly decrease left to
right and the peaks' `2^height` weights sum to `k`, which is also the
recorded leaf count. -/
theorem mmr_invariant_after_appends (hashFunc : HashFunc) (items : List Bytes)
    (hne : ∀ d ∈ items, d ≠ []) :
    ∃ m', MMR.appendAll NewMMR items hashFunc = some m'
      ∧ List.Chain' (fun a b => b.height < a.height) m'.peaks
      ∧ peaksSize m'.peaks = items.length
      ∧ m'.size = items.length := by
  obtain ⟨m', hall, hinv, hsz⟩ := appendAll_inv hashFunc items NewMMR hne
  have hbase : mmrInv NewMMR := ⟨List.chain'_nil, rfl⟩
  obtain ⟨hc, hs⟩ := hinv hbase
  have hsize : m'.size = items.length := by
    rw [hsz]
    show NewMMR.size + items.length = items.length
    simp [NewMMR]
  exact ⟨m', hall, hc, by rw [hs, hsize], hsize⟩

/-- Witness for C9: five concrete appends, ending with peak heights `[2, 0]`. -/
theorem mmr_invariant_after_appends_witness :
    ∃ m', MMR.appendAll NewMMR [[1], [2], [3], [4], [5]] encHash = some m'
      ∧ List.Chain' (fun a b => b.height < a.height) m'.peaks
      ∧ peaksSize m'.peaks = ([[1], [2], [3], [4], [5]] : List Bytes).length
      ∧ m'.size = ([[1], [2], [3], [4], [5]] : List Bytes).length :=
  mmr_invariant_after_appends encHash [[1], [2], [3], [4], [5]] (by decide)

/-! ### Consistency proof correctness (C2)

The consistency recursion works on aligned segments of the leaf vector:
`segTree ld s z` is the subtree that `buildRecursive` creates over the
leaves `[s, s+z)`.  `InSeg S N s z` says that the segment `[s, s+z)` is a
node of the RFC 6962 tree over `[S, S+N)` (reached by descending through
split points), which is exactly the set of segments whose digests
`findHashTopDown` can locate. -/

/-- The tree built over the leaf-digest segment `[s, s+z)`. -/
def segTree (hashFunc : HashFunc) (ld : List Digest) (s z : Nat) : MTree :=
  buildRecursive hashFunc ((ld.drop s).take z)

/-- `[s, s+z)` is a node of the recursively split tree over `[S, S+N)`. -/
inductive InSeg : Nat → Nat → Nat → Nat → Prop where
  | refl (S N : Nat) : InSeg S N S N
  | left {S N s z : Nat} (h2 : 2 ≤ N) :
      InSeg S (largestPowerOfTwoLessThan N) s z → InSeg S N s z
  | right {S N s z : Nat} (h2 : 2 ≤ N) :
      InSeg (S + largestPowerOfTwoLessThan N) (N - largestPowerOfTwoLessThan N) s z →
      InSeg S N s z

theorem InSeg.bounds {S N s z : Nat} (h : InSeg S N s z) :
    S ≤ s ∧ s + z ≤ S + N := by
  induction h with
  | refl S N => omega
  | left h2 _ ih =>
    have := split_lt h2
    omega
  | right h2 _ ih =>
    have := split_lt h2
    have := split_pos h2
    omega

theorem InSeg.size_pos {S N s z : Nat} (h : InSeg S N s z) (hN : 1 ≤ N) : 1 ≤ z := by
  induction h with
  | refl S N => omega
  | left h2 _ ih => exact ih (split_pos h2)
  | right h2 _ ih =>
    have := split_lt h2
    exact ih (by omega)

theorem InSeg.child_left {S N s z : Nat} (h : InSeg S N s z) (h2 : 2 ≤ z) :
    InSeg S N s (largestPowerOfTwoLessThan z) := by
  induction h with
  | refl S N => exact .left h2 (.refl _ _)
  | left hN _ ih => exact .left hN (ih h2)
  | right hN _ ih => exact .right hN (ih h2)

theorem InSeg.child_right {S N s z : Nat} (h : InSeg S N s z) (h2 : 2 ≤ z) :
    InSeg S N (s + largestPowerOfTwoLessThan z) (z - largestPowerOfTwoLessThan z) := by
  induction h with
  | refl S N => exact .right h2 (.refl _ _)
  | left hN _ ih => exact .left hN (ih h2)
  | right hN _ ih => exact .right hN (ih h2)

theorem seg_length (ld : List Digest) (s z : Nat) (h : s + z ≤ ld.length) :
    ((ld.drop s).take z).length = z := by
  simp only [List.length_take, List.length_drop]
  omega

theorem seg_take (ld : List Digest) (s z k : Nat) (hk : k ≤ z) :
    ((ld.drop s).take z).take k = (ld.drop s).take k := by
  rw [List.take_take]
  congr 1
  omega

theorem seg_drop (ld : List Digest) (s z k : Nat) :
    ((ld.drop s).take z).drop k = (ld.drop (s + k)).take (z - k) := by
  rw [List.drop_take, List.drop_drop]

/-- Unfolding `segTree` at a segment of size at least 2. -/
theorem segTree_unfold (hashFunc : HashFunc) (ld : List Digest) (s z : Nat)
    (h2 : 2 ≤ z) (hin : s + z ≤ ld.length) :
    segTree hashFunc ld s z =
      .node (hashInternalNodes
              (segTree hashFunc ld s (largestPowerOfTwoLessThan z)).digest
              (segTree hashFunc ld (s + largestPowerOfTwoLessThan z)
                (z - largestPowerOfTwoLessThan z)).digest hashFunc)
            (segTree hashFunc ld s (largestPowerOfTwoLessThan z))
            (segTree hashFunc ld (s + largestPowerOfTwoLessThan z)
              (z - largestPowerOfTwoLessThan z)) := by
  have hlen : ((ld.drop s).take z).length = z := seg_length ld s z hin
  have hk := split_pos h2
  have hklt := split_lt h2
  rw [segTree, buildRecursive_two_le hashFunc _ (by omega), hlen]
  rw [seg_take ld s z _ (by omega), seg_drop ld s z _]
  rfl

/-- A single-leaf segment is the leaf itself. -/
theorem segTree_one (hashFunc : HashFunc) (ld : List Digest) (s : Nat)
    (hs : s < ld.length) :
    segTree hashFunc ld s 1 = .leaf ld[s] := by
  have : (ld.drop s).take 1 = [ld[s]] := by
    have h1 : s + 1 ≤ ld.length := hs
    apply List.ext_getElem
    · rw [seg_length ld s 1 h1]
      rfl
    · intro i hi₁ hi₂
      rw [seg_length ld s 1 h1] at hi₁
      interval_cases i
      simp
  rw [segTree, this]
  exact buildRecursive_singleton hashFunc _

/-- Unfolding equation of `findHashTopDown` in `if`-form. -/
theorem findHashTopDown_eq (t : MTree) (ns nn ts tn : Nat) :
    findHashTopDown t ns nn ts tn =
      if ns = ts ∧ nn = tn then some t.digest
      else
        match t with
        | .leaf _ => none
        | .node _ l r =>
          let k := largestPowerOfTwoLessThan nn
          if ts < ns + k then findHashTopDown l ns k ts tn
          else findHashTopDown r (ns + k) (nn - k) ts tn := by
  rw [findHashTopDown.eq_def]

/-- `findHashTopDown` from the root of the tree over `[S, S+N)` locates
the digest of any aligned subsegment. -/
theorem findHashTopDown_aligned (hashFunc : HashFunc) (ld : List Digest) :
    ∀ {S N s z : Nat}, InSeg S N s z → 1 ≤ z → z ≤ N → S + N ≤ ld.length →
      findHashTopDown (segTree hashFunc ld S N) S N s z =
        some (segTree hashFunc ld s z).digest := by
  intro S N s z h
  induction h with
  | refl S N =>
    intro _ _ _
    rw [findHashTopDown_eq, if_pos ⟨rfl, rfl⟩]
  | @left S N s z h2 hd ih =>
    intro hz hzN hSN
    by_cases hcase : S = s ∧ N = z
    · obtain ⟨rfl, rfl⟩ := hcase
      rw [findHashTopDown_eq, if_pos ⟨rfl, rfl⟩]
    · have hk := split_pos h2
      have hklt := split_lt h2
      obtain ⟨hs1, hs2⟩ := hd.bounds
      have hzk : z ≤ largestPowerOfTwoLessThan N := by omega
      rw [findHashTopDown_eq, if_neg hcase, segTree_unfold hashFunc ld S N h2 hSN]
      show (if s < S + largestPowerOfTwoLessThan N then
          findHashTopDown (segTree hashFunc ld S (largestPowerOfTwoLessThan N))
            S (largestPowerOfTwoLessThan N) s z
        else findHashTopDown
          (segTree hashFunc ld (S + largestPowerOfTwoLessThan N)
            (N - largestPowerOfTwoLessThan N))
          (S + largestPowerOfTwoLessThan N) (N - largestPowerOfTwoLessThan N) s z) =
        some (segTree hashFunc ld s z).digest
      rw [if_pos (by omega)]
      exact ih hz hzk (by omega)
  | @right S N s z h2 hd ih =>
    intro hz hzN hSN
    by_cases hcase : S = s ∧ N = z
    · obtain ⟨rfl, rfl⟩ := hcase
      rw [findHashTopDown_eq, if_pos ⟨rfl, rfl⟩]
    · have hk := split_pos h2
      have hklt := split_lt h2
      obtain ⟨hs1, hs2⟩ := hd.bounds
      rw [findHashTopDown_eq, if_neg hcase, segTree_unfold hashFunc ld S N h2 hSN]
      show (if s < S + largestPowerOfTwoLessThan N then
          findHashTopDown (segTree hashFunc ld S (largestPowerOfTwoLessThan N))
            S (largestPowerOfTwoLessThan N) s z
        else findHashTopDown
          (segTree hashFunc ld (S + largestPowerOfTwoLessThan N)
            (N - largestPowerOfTwoLessThan N))
          (S + largestPowerOfTwoLessThan N) (N - largestPowerOfTwoLessThan N) s z) =
        some (segTree hashFunc ld s z).digest
      rw [if_neg (by omega)]
      exact ih hz (by omega) (by omega)

/-- `Tree.subtreeHash` succeeds on every aligned segment and returns the
digest of the tree built over that segment. -/
theorem subtreeHash_aligned (hashFunc : HashFunc) (t : Tree) (ld : List Digest)
    (hlv : t.leaves = ld) (hrt : t.root = segTree hashFunc ld 0 ld.length)
    (s z : Nat) (hin : InSeg 0 ld.length s z) (hz : 1 ≤ z) (hzn : z ≤ ld.length) :
    t.subtreeHash s z = some (segTree hashFunc ld s z).digest := by
  rw [Tree.subtreeHash]
  by_cases h1 : z = 1
  · subst h1
    have hs : s < ld.length := by
      have := hin.bounds
      omega
    rw [if_pos rfl, hlv, segTree_one hashFunc ld s hs,
      List.getElem?_eq_getElem hs]
    rfl
  · rw [if_neg h1, hlv, hrt]
    exact findHashTopDown_aligned hashFunc ld hin hz hzn (by omega)

/-- Core lemma for C2: on every aligned segment `[start, start+sz)` the
generated sub-proof exists and, fed to the verifier (with any suffix of
extra hashes), reconstructs exactly the digests of the old subtree
(first `m` leaves of the segment) and of the whole segment, consuming
exactly the generated hashes. -/
theorem subProof_verify_aux (hashFunc : HashFunc) (t : Tree) (ld : List Digest)
    (hlv : t.leaves = ld) (hrt : t.root = segTree hashFunc ld 0 ld.length) :
    ∀ sz m start : Nat, ∀ b : Bool, ∀ R : Digest,
      1 ≤ m → m ≤ sz → start + sz ≤ ld.length → InSeg 0 ld.length start sz →
      (b = true → R = (segTree hashFunc ld start m).digest) →
      ∃ hs : List Digest, t.subProofRecursively m start sz b = some hs ∧
        ∀ rest : List Digest, verifySubProof hashFunc m sz b (hs ++ rest) R =
          some ((segTree hashFunc ld start m).digest,
                (segTree hashFunc ld start sz).digest, rest) := by
  intro sz
  induction sz using Nat.strong_induction_on with
  | _ sz ih =>
    intro m start b R hm hmsz hsz hin hb
    by_cases hmn : m = sz
    · subst hmn
      cases b with
      | true =>
        refine ⟨[], ?_, ?_⟩
        · rw [Tree.subProofRecursively.eq_def]
          simp
        · intro rest
          rw [verifySubProof.eq_def]
          simp only [if_pos rfl, List.nil_append, if_true]
          rw [hb rfl]
      | false =>
        have hsub : t.subtreeHash start m =
            some (segTree hashFunc ld start m).digest :=
          subtreeHash_aligned hashFunc t ld hlv hrt start m hin hm (by omega)
        refine ⟨[(segTree hashFunc ld start m).digest], ?_, ?_⟩
        · rw [Tree.subProofRecursively.eq_def]
          simp [hsub]
        · intro rest
          rw [verifySubProof.eq_def]
          simp
    · have hmlt : m < sz := by omega
      have hsz2 : 2 ≤ sz := by omega
      have hkpos := split_pos hsz2
      have hklt := split_lt hsz2
      have hn1 : ¬ sz ≤ 1 := by omega
      by_cases hmk : m ≤ largestPowerOfTwoLessThan sz
      · obtain ⟨hs₀, hgen₀, hver₀⟩ := ih (largestPowerOfTwoLessThan sz) (by omega)
          m start b R hm hmk (by omega) (hin.child_left hsz2) hb
        have hsubR : t.subtreeHash (start + largestPowerOfTwoLessThan sz)
            (sz - largestPowerOfTwoLessThan sz) =
            some (segTree hashFunc ld (start + largestPowerOfTwoLessThan sz)
              (sz - largestPowerOfTwoLessThan sz)).digest :=
          subtreeHash_aligned hashFunc t ld hlv hrt _ _ (hin.child_right hsz2)
            (by omega) (by omega)
        have hnew : (segTree hashFunc ld start sz).digest =
            hashInternalNodes (segTree hashFunc ld start (largestPowerOfTwoLessThan sz)).digest
              (segTree hashFunc ld (start + largestPowerOfTwoLessThan sz)
                (sz - largestPowerOfTwoLessThan sz)).digest hashFunc := by
          rw [segTree_unfold hashFunc ld start sz hsz2 (by omega)]
          rfl
        refine ⟨hs₀ ++ [(segTree hashFunc ld (start + largestPowerOfTwoLessThan sz)
          (sz - largestPowerOfTwoLessThan sz)).digest], ?_, ?_⟩
        · rw [Tree.subProofRecursively.eq_def]
          simp only [if_neg hmn, dif_neg hn1, if_pos hmk]
          rw [hgen₀, hsubR]
          rfl
        · intro rest
          rw [verifySubProof.eq_def]
          simp only [if_neg hmn, dif_neg hn1, if_pos hmk]
          rw [List.append_assoc, List.singleton_append,
            hver₀ ((segTree hashFunc ld (start + largestPowerOfTwoLessThan sz)
              (sz - largestPowerOfTwoLessThan sz)).digest :: rest)]
          simp only [Option.some_bind]
          rw [hnew]
      · have hm2 : 2 ≤ m := by omega
        have hkm : largestPowerOfTwoLessThan m = largestPowerOfTwoLessThan sz :=
          split_eq_of_between hsz2 (by omega) (by omega)
        obtain ⟨hs₀, hgen₀, hver₀⟩ := ih (sz - largestPowerOfTwoLessThan sz) (by omega)
          (m - largestPowerOfTwoLessThan sz) (start + largestPowerOfTwoLessThan sz)
          false R (by omega) (by omega) (by omega) (hin.child_right hsz2) (by simp)
        have hsubL : t.subtreeHash start (largestPowerOfTwoLessThan sz) =
            some (segTree hashFunc ld start (largestPowerOfTwoLessThan sz)).digest :=
          subtreeHash_aligned hashFunc t ld hlv hrt _ _ (hin.child_left hsz2)
            (by omega) (by omega)
        have hold : (segTree hashFunc ld start m).digest =
            hashInternalNodes (segTree hashFunc ld start (largestPowerOfTwoLessThan sz)).digest
              (segTree hashFunc ld (start + largestPowerOfTwoLessThan sz)
                (m - largestPowerOfTwoLessThan sz)).digest hashFunc := by
          rw [segTree_unfold hashFunc ld start m hm2 (by omega), hkm]
          rfl
        have hnew : (segTree hashFunc ld start sz).digest =
            hashInternalNodes (segTree hashFunc ld start (largestPowerOfTwoLessThan sz)).digest
              (segTree hashFunc ld (start + largestPowerOfTwoLessThan sz)
                (sz - largestPowerOfTwoLessThan sz)).digest hashFunc := by
          rw [segTree_unfold hashFunc ld start sz hsz2 (by omega)]
          rfl
        refine ⟨hs₀ ++ [(segTree hashFunc ld start (largestPowerOfTwoLessThan sz)).digest],
          ?_, ?_⟩
        · rw [Tree.subProofRecursively.eq_def]
          simp only [if_neg hmn, dif_neg hn1, if_neg hmk]
          rw [hgen₀, hsubL]
          rfl
        · intro rest
          rw [verifySubProof.eq_def]
          simp only [if_neg hmn, dif_neg hn1, if_neg hmk]
          rw [List.append_assoc, List.singleton_append,
            hver₀ ((segTree hashFunc ld start (largestPowerOfTwoLessThan sz)).digest :: rest)]
          simp only [Option.some_bind]
          rw [hold, hnew]

/-- C2 — for `1 ≤ m ≤ n = |data|`, the consistency proof generated on the
tree over `data` verifies against the root of the tree over the first `m`
leaves and the root of the full tree; and for `m = n` the generated proof
is empty. -/
theorem consistency_roundtrip (hashFunc : HashFunc) (data : List Bytes) (m : Nat)
    (hne : data ≠ []) (hm1 : 1 ≤ m) (hmn : m ≤ data.length) :
    ((Tree.build hashFunc data).generateConsistencyProof m).map
        (fun hs => VerifyConsistencyProof m data.length
          (Tree.build hashFunc (data.take m)).rootHash
          (Tree.build hashFunc data).rootHash hs hashFunc) = some true
    ∧ (m = data.length →
        (Tree.build hashFunc data).generateConsistencyProof m = some []) := by
  set ld : List Digest := data.map (hashLeafData · hashFunc) with hld
  have hlen : ld.length = data.length := by simp [hld]
  have hlv : (Tree.build hashFunc data).leaves = ld := rfl
  have hrt : (Tree.build hashFunc data).root = segTree hashFunc ld 0 ld.length := by
    show buildRecursive hashFunc ld = buildRecursive hashFunc ((ld.drop 0).take ld.length)
    rw [List.drop_zero, List.take_length]
  have hold : (Tree.build hashFunc (data.take m)).rootHash =
      (segTree hashFunc ld 0 m).digest := by
    show (buildRecursive hashFunc ((data.take m).map (hashLeafData · hashFunc))).digest =
      (buildRecursive hashFunc ((ld.drop 0).take m)).digest
    rw [List.drop_zero, hld, List.map_take]
  have hnewr : (Tree.build hashFunc data).rootHash =
      (segTree hashFunc ld 0 ld.length).digest := by
    show (Tree.build hashFunc data).root.digest = _
    rw [hrt]
  have hguard : ¬ (m = 0 ∨ m > (Tree.build hashFunc data).leaves.length) := by
    rw [hlv, hlen]
    omega
  by_cases hcase : m = data.length
  · have hgen : (Tree.build hashFunc data).generateConsistencyProof m = some [] := by
      rw [Tree.generateConsistencyProof]
      simp only [if_neg hguard]
      rw [Tree.subProofRecursively.eq_def]
      simp [hlv, hlen, hcase]
    refine ⟨?_, fun _ => hgen⟩
    rw [hgen, Option.map_some']
    rw [VerifyConsistencyProof, if_pos hcase]
    rw [hold, hnewr, hcase, ← hlen]
    simp
  · have hmlt : m < ld.length := by omega
    obtain ⟨hs, hgen, hver⟩ := subProof_verify_aux hashFunc (Tree.build hashFunc data)
      ld hlv hrt ld.length m 0 true ((segTree hashFunc ld 0 m).digest)
      hm1 (by omega) (by omega) (.refl 0 ld.length) (fun _ => rfl)
    have hgen' : (Tree.build hashFunc data).generateConsistencyProof m = some hs := by
      rw [Tree.generateConsistencyProof]
      simp only [if_neg hguard]
      rw [hlv, hlen, ← hlen]
      exact hgen
    refine ⟨?_, fun hcontra => absurd hcontra hcase⟩
    rw [hgen', Option.map_some']
    have hver0 := hver []
    rw [List.append_nil] at hver0
    rw [VerifyConsistencyProof, if_neg (by omega), if_neg (by rw [← hlen]; omega)]
    rw [← hlen, hold, hnewr, hver0]
    simp

/-- Witness for C2 on a concrete three-leaf tree with `m = 2`. -/
theorem consistency_roundtrip_witness :
    ((Tree.build encHash [[1], [2], [3]]).generateConsistencyProof 2).map
        (fun hs => VerifyConsistencyProof 2 ([[1], [2], [3]] : List Bytes).length
          (Tree.build encHash (([[1], [2], [3]] : List Bytes).take 2)).rootHash
          (Tree.build encHash [[1], [2], [3]]).rootHash hs encHash) = some true
    ∧ (2 = ([[1], [2], [3]] : List Bytes).length →
        (Tree.build encHash [[1], [2], [3]]).generateConsistencyProof 2 = some []) :=
  consistency_roundtrip encHash [[1], [2], [3]] 2 (by decide) (by decide) (by decide)

/-! ### Tamper rejection for consistency proofs (C3)

`verifySubProof` never inspects hash values to decide control flow: the
number of hashes it consumes is a function `consumeCount` of `(m, n, b)`
alone.  A run succeeds iff the proof supplies at least that many hashes,
and the final acceptance additionally requires that none remain. -/

/-- Number of proof hashes `verifySubProof` pops for parameters
`(m, n, b)` (on the guarded range `1 ≤ m ≤ n`). -/
def consumeCount (m n : Nat) (b : Bool) : Nat :=
  if m = n then (if b then 0 else 1)
  else if hn : n ≤ 1 then 0
  else
    let k := largestPowerOfTwoLessThan n
    if m ≤ k then consumeCount m k b + 1
    else consumeCount (m - k) (n - k) false + 1
termination_by n
decreasing_by
  · have := split_lt (n := n) (by omega)
    omega
  · have := split_pos (n := n) (by omega)
    omega

/-- `verifySubProof` succeeds iff the proof has at least `consumeCount`
hashes, in which case the remainder is exactly the proof with the first
`consumeCount` hashes removed. -/
theorem verifySubProof_structure (hashFunc : HashFunc) :
    ∀ n m : Nat, 1 ≤ m → m ≤ n → ∀ (b : Bool) (hs : List Digest) (R : Digest),
      (consumeCount m n b ≤ hs.length →
        ∃ x y, verifySubProof hashFunc m n b hs R =
          some (x, y, hs.drop (consumeCount m n b)))
      ∧ (hs.length < consumeCount m n b →
          verifySubProof hashFunc m n b hs R = none) := by
  intro n
  induction n using Nat.strong_induction_on with
  | _ n ih =>
    intro m hm hmn b hs R
    by_cases hmn' : m = n
    · subst hmn'
      cases b with
      | true =>
        have hc : consumeCount m m true = 0 := by
          rw [consumeCount.eq_def]
          simp
        rw [hc]
        refine ⟨fun _ => ⟨R, R, ?_⟩, fun hlt => by omega⟩
        rw [verifySubProof.eq_def]
        simp
      | false =>
        have hc : consumeCount m m false = 1 := by
          rw [consumeCount.eq_def]
          simp
        rw [hc]
        constructor
        · intro hle
          match hs, hle with
          | h :: tl, _ =>
            refine ⟨h, h, ?_⟩
            rw [verifySubProof.eq_def]
            simp
        · intro hlt
          have : hs = [] := by
            match hs with
            | [] => rfl
            | _ :: _ => simp at hlt
          subst this
          rw [verifySubProof.eq_def]
          simp
    · have h2 : 2 ≤ n := by omega
      have hkpos := split_pos h2
      have hklt := split_lt h2
      have hn1 : ¬ n ≤ 1 := by omega
      by_cases hmk : m ≤ largestPowerOfTwoLessThan n
      · have hc : consumeCount m n b =
            consumeCount m (largestPowerOfTwoLessThan n) b + 1 := by
          rw [consumeCount.eq_def]
          simp only [if_neg hmn', dif_neg hn1, if_pos hmk]
        obtain ⟨hsucc, hfail⟩ := ih (largestPowerOfTwoLessThan n) (by omega) m hm hmk b hs R
        rw [hc]
        constructor
        · intro hle
          obtain ⟨x, y, hxy⟩ := hsucc (by omega)
          have hlelen : consumeCount m (largestPowerOfTwoLessThan n) b < hs.length := by
            omega
          obtain ⟨d, tl, hdt⟩ : ∃ d tl,
              hs.drop (consumeCount m (largestPowerOfTwoLessThan n) b) = d :: tl := by
            match hh : hs.drop (consumeCount m (largestPowerOfTwoLessThan n) b) with
            | [] =>
              have := congrArg List.length hh
              simp at this
              omega
            | d :: tl => exact ⟨d, tl, rfl⟩
          have htl : tl = hs.drop (consumeCount m (largestPowerOfTwoLessThan n) b + 1) := by
            have h := congrArg (List.drop 1) hdt
            rw [List.drop_drop] at h
            simpa [Nat.add_comm] using h.symm
          refine ⟨x, hashInternalNodes y d hashFunc, ?_⟩
          rw [verifySubProof.eq_def]
          simp only [if_neg hmn', dif_neg hn1, if_pos hmk]
          rw [hxy, Option.some_bind, hdt, ← htl]
        · intro hlt
          by_cases hsplit : hs.length < consumeCount m (largestPowerOfTwoLessThan n) b
          · rw [verifySubProof.eq_def]
            simp only [if_neg hmn', dif_neg hn1, if_pos hmk]
            rw [hfail hsplit]
            rfl
          · obtain ⟨x, y, hxy⟩ := hsucc (by omega)
            have hdrop : hs.drop (consumeCount m (largestPowerOfTwoLessThan n) b) = [] := by
              apply List.eq_nil_of_length_eq_zero
              simp only [List.length_drop]
              omega
            rw [verifySubProof.eq_def]
            simp only [if_neg hmn', dif_neg hn1, if_pos hmk]
            rw [hxy, Option.some_bind, hdrop]
      · have hc : consumeCount m n b =
            consumeCount (m - largestPowerOfTwoLessThan n)
              (n - largestPowerOfTwoLessThan n) false + 1 := by
          rw [consumeCount.eq_def]
          simp only [if_neg hmn', dif_neg hn1, if_neg hmk]
        obtain ⟨hsucc, hfail⟩ := ih (n - largestPowerOfTwoLessThan n) (by omega)
          (m - largestPowerOfTwoLessThan n) (by omega) (by omega) false hs R
        rw [hc]
        constructor
        · intro hle
          obtain ⟨x, y, hxy⟩ := hsucc (by omega)
          have hlelen : consumeCount (m - largestPowerOfTwoLessThan n)
              (n - largestPowerOfTwoLessThan n) false < hs.length := by omega
          obtain ⟨d, tl, hdt⟩ : ∃ d tl,
              hs.drop (consumeCount (m - largestPowerOfTwoLessThan n)
                (n - largestPowerOfTwoLessThan n) false) = d :: tl := by
            match hh : hs.drop (consumeCount (m - largestPowerOfTwoLessThan n)
                (n - largestPowerOfTwoLessThan n) false) with
            | [] =>
              have := congrArg List.length hh
              simp at this
              omega
            | d :: tl => exact ⟨d, tl, rfl⟩
          have htl : tl = hs.drop (consumeCount (m - largestPowerOfTwoLessThan n)
              (n - largestPowerOfTwoLessThan n) false + 1) := by
            have h := congrArg (List.drop 1) hdt
            rw [List.drop_drop] at h
            simpa [Nat.add_comm] using h.symm
          refine ⟨hashInternalNodes d x hashFunc, hashInternalNodes d y hashFunc, ?_⟩
          rw [verifySubProof.eq_def]
          simp only [if_neg hmn', dif_neg hn1, if_neg hmk]
          rw [hxy, Option.some_bind, hdt, ← htl]
        · intro hlt
          by_cases hsplit : hs.length < consumeCount (m - largestPowerOfTwoLessThan n)
              (n - largestPowerOfTwoLessThan n) false
          · rw [verifySubProof.eq_def]
            simp only [if_neg hmn', dif_neg hn1, if_neg hmk]
            rw [hfail hsplit]
            rfl
          · obtain ⟨x, y, hxy⟩ := hsucc (by omega)
            have hdrop : hs.drop (consumeCount (m - largestPowerOfTwoLessThan n)
                (n - largestPowerOfTwoLessThan n) false) = [] := by
              apply List.eq_nil_of_length_eq_zero
              simp only [List.length_drop]
              omega
            rw [verifySubProof.eq_def]
            simp only [if_neg hmn', dif_neg hn1, if_neg hmk]
            rw [hxy, Option.some_bind, hdrop]

/-- With a fixed-output-length hash, both reconstructed roots have the
output length (when the supplied old root and all proof hashes do). -/
theorem verifySubProof_lengths (hashFunc : HashFunc) (w : Nat)
    (hw : ∀ a, (hashFunc a).length = w) :
    ∀ n m : Nat, 1 ≤ m → m ≤ n → ∀ (b : Bool) (hs : List Digest) (R : Digest)
      (x y : Digest) (rem : List Digest),
      R.length = w → (∀ h ∈ hs, h.length = w) →
      verifySubProof hashFunc m n b hs R = some (x, y, rem) →
      x.length = w ∧ y.length = w := by
  intro n
  induction n using Nat.strong_induction_on with
  | _ n ih =>
    intro m hm hmn b hs R x y rem hR hhs heq
    by_cases hmn' : m = n
    · subst hmn'
      rw [verifySubProof.eq_def] at heq
      simp only [if_pos rfl] at heq
      cases b with
      | true =>
        simp only [if_true] at heq
        injection heq with h
        obtain ⟨rfl, rfl, rfl⟩ := Prod.mk.injEq .. ▸ (by
          have h1 := congrArg Prod.fst h
          have h2 := congrArg (fun p => p.2.1) h
          have h3 := congrArg (fun p => p.2.2) h
          exact ⟨h1.symm, h2.symm, h3.symm⟩ : x = R ∧ y = R ∧ rem = hs)
        exact ⟨hR, hR⟩
      | false =>
        simp only [Bool.false_eq_true, if_false] at heq
        match hs, hhs, heq with
        | h₀ :: tl, hhs, heq =>
          injection heq with h
          have h1 : x = h₀ := (congrArg Prod.fst h).symm
          have h2 : y = h₀ := (congrArg (fun p => p.2.1) h).symm
          have hmem : h₀.length = w := hhs h₀ (by simp)
          rw [h1, h2]
          exact ⟨hmem, hmem⟩
    · have h2 : 2 ≤ n := by omega
      have hkpos := split_pos h2
      have hklt := split_lt h2
      have hn1 : ¬ n ≤ 1 := by omega
      rw [verifySubProof.eq_def] at heq
      simp only [if_neg hmn', dif_neg hn1] at heq
      by_cases hmk : m ≤ largestPowerOfTwoLessThan n
      · simp only [if_pos hmk] at heq
        obtain ⟨res, hres, hmatch⟩ := Option.bind_eq_some.mp heq
        match hr : res.2.2, hmatch with
        | d :: tl, hmatch =>
          injection hmatch with h
          have h1 : x = res.1 := (congrArg Prod.fst h).symm
          have h2 : y = hashInternalNodes res.2.1 d hashFunc :=
            (congrArg (fun p => p.2.1) h).symm
          obtain ⟨hx, _⟩ := ih (largestPowerOfTwoLessThan n) (by omega) m hm hmk b hs R
            res.1 res.2.1 res.2.2 hR hhs (by rw [hres])
          rw [h1, h2]
          exact ⟨hx, hw _⟩
      · simp only [if_neg hmk] at heq
        obtain ⟨res, hres, hmatch⟩ := Option.bind_eq_some.mp heq
        match hr : res.2.2, hmatch with
        | d :: tl, hmatch =>
          injection hmatch with h
          have h1 : x = hashInternalNodes d res.1 hashFunc :=
            (congrArg Prod.fst h).symm
          have h2 : y = hashInternalNodes d res.2.1 hashFunc :=
            (congrArg (fun p => p.2.1) h).symm
          rw [h1, h2]
          exact ⟨hw _, hw _⟩

/-- With an injective hash, `nodeDigest` is injective on pairs of equal
first-component length. -/
theorem hashInternalNodes_pair_inj (hashFunc : HashFunc)
    (hinj : Function.Injective hashFunc) {a₁ b₁ a₂ b₂ : Digest}
    (ha : a₁.length = a₂.length)
    (heq : hashInternalNodes a₁ b₁ hashFunc = hashInternalNodes a₂ b₂ hashFunc) :
    a₁ = a₂ ∧ b₁ = b₂ := by
  have h := hinj heq
  injection h with _ h2
  exact List.append_inj h2 ha

theorem take_succ_of_drop (hs : List Digest) (c : Nat) (d : Digest) (tl : List Digest)
    (h : hs.drop c = d :: tl) : hs.take (c + 1) = hs.take c ++ [d] := by
  have hlen : c < hs.length := by
    have := congrArg List.length h
    simp only [List.length_drop, List.length_cons] at this
    omega
  calc hs.take (c + 1) = ((hs.take c) ++ hs.drop c).take (c + 1) := by
        rw [List.take_append_drop]
    _ = ((hs.take c) ++ (d :: tl)).take (c + 1) := by rw [h]
    _ = hs.take c ++ [d] := by
        rw [List.take_append_eq_append_take]
        have h1 : (hs.take c).length = c := by
          simp only [List.length_take]
          omega
        rw [List.take_of_length_le (by omega), h1]
        have h2 : c + 1 - c = 1 := by omega
        rw [h2]
        rfl

/-- The remainder returned by a successful `verifySubProof` run is the
input with its first `consumeCount` hashes removed. -/
theorem verifySubProof_remainder (hashFunc : HashFunc) {n m : Nat}
    (hm : 1 ≤ m) (hmn : m ≤ n) {b : Bool} {hs : List Digest} {R : Digest}
    {x y : Digest} {rem : List Digest}
    (heq : verifySubProof hashFunc m n b hs R = some (x, y, rem)) :
    consumeCount m n b ≤ hs.length ∧ rem = hs.drop (consumeCount m n b) := by
  have hcle : consumeCount m n b ≤ hs.length := by
    by_contra hcon
    have := (verifySubProof_structure hashFunc n m hm hmn b hs R).2 (by omega)
    rw [this] at heq
    exact absurd heq (by simp)
  obtain ⟨x', y', hxy'⟩ := (verifySubProof_structure hashFunc n m hm hmn b hs R).1 hcle
  rw [heq] at hxy'
  injection hxy' with h
  exact ⟨hcle, (congrArg (fun p => p.2.2) h)⟩

/-- With an injective fixed-length hash, two successful runs of
`verifySubProof` on the same parameters that reconstruct the same pair of
roots must have consumed identical hash prefixes. -/
theorem verifySubProof_consumed_inj (hashFunc : HashFunc) (w : Nat)
    (hw : ∀ a, (hashFunc a).length = w) (hinj : Function.Injective hashFunc) :
    ∀ n m : Nat, 1 ≤ m → m ≤ n → ∀ (b : Bool) (hs₁ hs₂ : List Digest) (R : Digest)
      (x y : Digest) (r₁ r₂ : List Digest),
      R.length = w → (∀ h ∈ hs₁, h.length = w) → (∀ h ∈ hs₂, h.length = w) →
      verifySubProof hashFunc m n b hs₁ R = some (x, y, r₁) →
      verifySubProof hashFunc m n b hs₂ R = some (x, y, r₂) →
      hs₁.take (consumeCount m n b) = hs₂.take (consumeCount m n b) := by
  intro n
  induction n using Nat.strong_induction_on with
  | _ n ih =>
    intro m hm hmn b hs₁ hs₂ R x y r₁ r₂ hR hw1 hw2 heq₁ heq₂
    by_cases hmn' : m = n
    · subst hmn'
      cases b with
      | true =>
        have hc : consumeCount m m true = 0 := by
          rw [consumeCount.eq_def]
          simp
        rw [hc]
        simp
      | false =>
        have hc : consumeCount m m false = 1 := by
          rw [consumeCount.eq_def]
          simp
        rw [verifySubProof.eq_def] at heq₁ heq₂
        simp only [if_pos rfl, Bool.false_eq_true, if_false] at heq₁ heq₂
        match hs₁, heq₁ with
        | h₁ :: tl₁, heq₁ =>
          match hs₂, heq₂ with
          | h₂ :: tl₂, heq₂ =>
            injection heq₁ with hp₁
            injection heq₂ with hp₂
            have e₁ : h₁ = x := congrArg Prod.fst hp₁
            have e₂ : h₂ = x := congrArg Prod.fst hp₂
            rw [hc]
            show List.take 1 (h₁ :: tl₁) = List.take 1 (h₂ :: tl₂)
            simp [e₁, e₂]
    · have h2 : 2 ≤ n := by omega
      have hkpos := split_pos h2
      have hklt := split_lt h2
      have hn1 : ¬ n ≤ 1 := by omega
      rw [verifySubProof.eq_def] at heq₁ heq₂
      simp only [if_neg hmn', dif_neg hn1] at heq₁ heq₂
      by_cases hmk : m ≤ largestPowerOfTwoLessThan n
      · simp only [if_pos hmk] at heq₁ heq₂
        obtain ⟨res₁, hres₁, hmatch₁⟩ := Option.bind_eq_some.mp heq₁
        obtain ⟨o₁, y₁, rem₁⟩ := res₁
        obtain ⟨res₂, hres₂, hmatch₂⟩ := Option.bind_eq_some.mp heq₂
        obtain ⟨o₂, y₂, rem₂⟩ := res₂
        match rem₁, hmatch₁ with
        | d₁ :: tl₁, hmatch₁ =>
          match rem₂, hmatch₂ with
          | d₂ :: tl₂, hmatch₂ =>
            injection hmatch₁ with hp₁
            injection hmatch₂ with hp₂
            have ho₁ : o₁ = x := congrArg Prod.fst hp₁
            have ho₂ : o₂ = x := congrArg Prod.fst hp₂
            have hy₁ : hashInternalNodes y₁ d₁ hashFunc = y :=
              congrArg (fun p => p.2.1) hp₁
            have hy₂ : hashInternalNodes y₂ d₂ hashFunc = y :=
              congrArg (fun p => p.2.1) hp₂
            have hl₁ := verifySubProof_lengths hashFunc w hw
              (largestPowerOfTwoLessThan n) m hm hmk b hs₁ R o₁ y₁ (d₁ :: tl₁) hR hw1 hres₁
            have hl₂ := verifySubProof_lengths hashFunc w hw
              (largestPowerOfTwoLessThan n) m hm hmk b hs₂ R o₂ y₂ (d₂ :: tl₂) hR hw2 hres₂
            obtain ⟨hyy, hdd⟩ := hashInternalNodes_pair_inj hashFunc hinj
              (by rw [hl₁.2, hl₂.2]) (hy₁.trans hy₂.symm)
            have hr₁ := verifySubProof_remainder hashFunc hm hmk hres₁
            have hr₂ := verifySubProof_remainder hashFunc hm hmk hres₂
            have hc : consumeCount m n b =
                consumeCount m (largestPowerOfTwoLessThan n) b + 1 := by
              rw [consumeCount.eq_def]
              simp only [if_neg hmn', dif_neg hn1, if_pos hmk]
            have hih := ih (largestPowerOfTwoLessThan n) (by omega) m hm hmk b hs₁ hs₂ R
              o₁ y₁ (d₁ :: tl₁) (d₂ :: tl₂) hR hw1 hw2 hres₁
              (by rw [hres₂, ho₂, ← ho₁, hyy])
            rw [hc,
              take_succ_of_drop hs₁ _ d₁ tl₁ (by rw [← hr₁.2]),
              take_succ_of_drop hs₂ _ d₂ tl₂ (by rw [← hr₂.2]),
              hih, hdd]
      · simp only [if_neg hmk] at heq₁ heq₂
        have hm' : 1 ≤ m - largestPowerOfTwoLessThan n := by omega
        have hmn'' : m - largestPowerOfTwoLessThan n ≤ n - largestPowerOfTwoLessThan n := by
          omega
        obtain ⟨res₁, hres₁, hmatch₁⟩ := Option.bind_eq_some.mp heq₁
        obtain ⟨o₁, y₁, rem₁⟩ := res₁
        obtain ⟨res₂, hres₂, hmatch₂⟩ := Option.bind_eq_some.mp heq₂
        obtain ⟨o₂, y₂, rem₂⟩ := res₂
        match rem₁, hmatch₁ with
        | d₁ :: tl₁, hmatch₁ =>
          match rem₂, hmatch₂ with
          | d₂ :: tl₂, hmatch₂ =>
            injection hmatch₁ with hp₁
            injection hmatch₂ with hp₂
            have ho₁ : hashInternalNodes d₁ o₁ hashFunc = x := congrArg Prod.fst hp₁
            have ho₂ : hashInternalNodes d₂ o₂ hashFunc = x := congrArg Prod.fst hp₂
            have hy₁ : hashInternalNodes d₁ y₁ hashFunc = y :=
              congrArg (fun p => p.2.1) hp₁
            have hy₂ : hashInternalNodes d₂ y₂ hashFunc = y :=
              congrArg (fun p => p.2.1) hp₂
            have hr₁ := verifySubProof_remainder hashFunc hm' hmn'' hres₁
            have hr₂ := verifySubProof_remainder hashFunc hm' hmn'' hres₂
            have hd₁w : d₁.length = w := by
              have : d₁ ∈ hs₁ := by
                have hmem : d₁ ∈ hs₁.drop (consumeCount (m - largestPowerOfTwoLessThan n)
                    (n - largestPowerOfTwoLessThan n) false) := by
                  rw [← hr₁.2]
                  simp
                exact List.drop_subset _ _ hmem
              exact hw1 d₁ this
            have hd₂w : d₂.length = w := by
              have : d₂ ∈ hs₂ := by
                have hmem : d₂ ∈ hs₂.drop (consumeCount (m - largestPowerOfTwoLessThan n)
                    (n - largestPowerOfTwoLessThan n) false) := by
                  rw [← hr₂.2]
                  simp
                exact List.drop_subset _ _ hmem
              exact hw2 d₂ this
            obtain ⟨hdd, hoo⟩ := hashInternalNodes_pair_inj hashFunc hinj
              (by rw [hd₁w, hd₂w]) (ho₁.trans ho₂.symm)
            obtain ⟨_, hyy⟩ := hashInternalNodes_pair_inj hashFunc hinj
              (by rw [hd₁w, hd₂w]) (hy₁.trans hy₂.symm)
            have hc : consumeCount m n b =
                consumeCount (m - largestPowerOfTwoLessThan n)
                  (n - largestPowerOfTwoLessThan n) false + 1 := by
              rw [consumeCount.eq_def]
              simp only [if_neg hmn', dif_neg hn1, if_neg hmk]
            have hih := ih (n - largestPowerOfTwoLessThan n) (by omega)
              (m - largestPowerOfTwoLessThan n) hm' hmn'' false hs₁ hs₂ R
              o₁ y₁ (d₁ :: tl₁) (d₂ :: tl₂) hR hw1 hw2 hres₁
              (by rw [hres₂, ← hoo, ← hyy])
            rw [hc,
              take_succ_of_drop hs₁ _ d₁ tl₁ (by rw [← hr₁.2]),
              take_succ_of_drop hs₂ _ d₂ tl₂ (by rw [← hr₂.2]),
              hih, hdd]

/-- C3 — `VerifyConsistencyProof` accepts only the exact hash list: for
any accepted `(m, n, oldRoot, newRoot, proof)` quintuple (the hash
function having fixed output length `w` and being injective, as the
idealised hash primitive; all digests of width `w`), dropping the last
proof hash, appending an extra hash, or replacing the proof by any other
same-shape hash list (in particular a byte-flipped one) makes
verification return `false`. -/
theorem consistency_tamper_rejected (hashFunc : HashFunc) (w m n : Nat)
    (oldRoot newRoot extra : Digest) (hs hs' : List Digest)
    (hwlen : ∀ a, (hashFunc a).length = w)
    (hinj : Function.Injective hashFunc)
    (hok : VerifyConsistencyProof m n oldRoot newRoot hs hashFunc = true)
    (hne : hs ≠ [])
    (hlen : hs'.length = hs.length)
    (hdiff : hs' ≠ hs)
    (hR : oldRoot.length = w)
    (hw1 : ∀ h ∈ hs, h.length = w)
    (hw2 : ∀ h ∈ hs', h.length = w) :
    VerifyConsistencyProof m n oldRoot newRoot hs.dropLast hashFunc = false
    ∧ VerifyConsistencyProof m n oldRoot newRoot (hs ++ [extra]) hashFunc = false
    ∧ VerifyConsistencyProof m n oldRoot newRoot hs' hashFunc = false := by
  by_cases hmn' : m = n
  · rw [VerifyConsistencyProof, if_pos hmn'] at hok
    simp only [Bool.and_eq_true, decide_eq_true_eq] at hok
    exact absurd hok.2 hne
  by_cases hguard : m = 0 ∨ m > n
  · rw [VerifyConsistencyProof, if_neg hmn', if_pos hguard] at hok
    exact absurd hok (by simp)
  have hm1 : 1 ≤ m := by omega
  have hmle : m ≤ n := by omega
  rw [VerifyConsistencyProof, if_neg hmn', if_neg hguard] at hok
  rcases hv : verifySubProof hashFunc m n true hs oldRoot with _ | ⟨co, cn, rem⟩
  · rw [hv] at hok
    exact absurd hok (by simp)
  rw [hv] at hok
  simp only [Bool.and_eq_true, decide_eq_true_eq] at hok
  obtain ⟨⟨hrem, hco⟩, hcn⟩ := hok
  rw [hrem, hco, hcn] at hv
  obtain ⟨hcle, hdropnil⟩ := verifySubProof_remainder hashFunc hm1 hmle hv
  have hlencount : hs.length = consumeCount m n true := by
    have := congrArg List.length hdropnil
    simp only [List.length_nil, List.length_drop] at this
    omega
  have hcpos : 1 ≤ consumeCount m n true := by
    have : hs.length ≠ 0 := by
      intro hz
      exact hne (List.eq_nil_of_length_eq_zero hz)
    omega
  refine ⟨?_, ?_, ?_⟩
  · have hfail := (verifySubProof_structure hashFunc n m hm1 hmle true
      hs.dropLast oldRoot).2 (by
        simp only [List.length_dropLast]
        omega)
    rw [VerifyConsistencyProof, if_neg hmn', if_neg hguard, hfail]
  · obtain ⟨x', y', hxy'⟩ := (verifySubProof_structure hashFunc n m hm1 hmle true
      (hs ++ [extra]) oldRoot).1 (by
        simp only [List.length_append, List.length_singleton]
        omega)
    have hdrop : (hs ++ [extra]).drop (consumeCount m n true) = [extra] := by
      rw [← hlencount, List.drop_left]
    rw [VerifyConsistencyProof, if_neg hmn', if_neg hguard, hxy', hdrop]
    simp
  · cases hres' : VerifyConsistencyProof m n oldRoot newRoot hs' hashFunc with
    | false => rfl
    | true =>
      exfalso
      rw [VerifyConsistencyProof, if_neg hmn', if_neg hguard] at hres'
      rcases hv' : verifySubProof hashFunc m n true hs' oldRoot with _ | ⟨co', cn', rem'⟩
      · rw [hv'] at hres'
        exact absurd hres' (by simp)
      rw [hv'] at hres'
      simp only [Bool.and_eq_true, decide_eq_true_eq] at hres'
      obtain ⟨⟨hrem', hco'⟩, hcn'⟩ := hres'
      rw [hrem', hco', hcn'] at hv'
      have htake := verifySubProof_consumed_inj hashFunc w hwlen hinj n m hm1 hmle
        true hs hs' oldRoot oldRoot newRoot [] [] hR hw1 hw2 hv hv'
      rw [List.take_of_length_le (by omega),
        List.take_of_length_le (by omega)] at htake
      exact hdiff (htake.symm)

theorem verifySubProof_base_concrete :
    verifySubProof encHash 1 1 true [[10]] [2] = some ([2], [2], [[10]]) := by
  rw [verifySubProof.eq_def]
  simp

theorem verifySubProof_step_concrete :
    verifySubProof encHash 1 2 true [[10]] [2] =
      some ([2], hashInternalNodes [2] [10] encHash, []) := by
  rw [verifySubProof.eq_def]
  simp only [if_neg (by omega : ¬(1 : Nat) = 2), dif_neg (by omega : ¬(2 : Nat) ≤ 1),
    split_two, if_pos (le_refl 1), verifySubProof_base_concrete, Option.some_bind]

theorem verifyConsistency_concrete :
    VerifyConsistencyProof 1 2 [2] [151880978] [[10]] encHash = true := by
  rw [VerifyConsistencyProof, if_neg (by omega : ¬(1 : Nat) = 2),
    if_neg (by omega : ¬((1 : Nat) = 0 ∨ 1 > 2)), verifySubProof_step_concrete]
  decide

/-- Witness for C3: a concrete accepted quintuple (`m = 1`, `n = 2`, the
proof being the second leaf digest), tampered three ways. -/
theorem consistency_tamper_rejected_witness :
    VerifyConsistencyProof 1 2 [2] [151880978] ([[10]] : List Digest).dropLast encHash = false
    ∧ VerifyConsistencyProof 1 2 [2] [151880978] ([[10]] ++ [[0]]) encHash = false
    ∧ VerifyConsistencyProof 1 2 [2] [151880978] [[999]] encHash = false :=
  consistency_tamper_rejected encHash 1 1 2 [2] [151880978] [0] [[10]] [[999]]
    (fun _ => rfl) encHash_injective verifyConsistency_concrete
    (by decide) (by decide) (by decide) (by decide) (by decide) (by decide)

end Teals
